import Mathlib

/-!
Verification development for the Supabase→Firebase batch-migration script
(`scripts/migrate_to_firebase.py`) and the moderation endpoint
(`app/routers/moderation.py`).

The Python code is shallowly embedded: external stores are modelled as
explicit data (the source table as a `List SourceRecord`, the progress file
as an `Option Progress`, writes to Firestore / Storage / Supabase as an
explicit `Effects` log), and exceptions are modelled with `Except`.
Machine floats produced by Python's `json.loads` are idealised as exact
rationals; the spec grants floating-point tolerance, which exact values
satisfy.
-/

/-! ## A fragment of JSON, modelling `json.loads` on embedding values

`migrate_chunk` runs `json.loads` on the serialized embedding string
(`"[0.1, 0.2, ...]"`).  We model `json.loads` restricted to the fragment it
is actually applied to: a single flat array of standard JSON number
literals and escape-free string literals, with JSON whitespace.  (Python's
NaN/Infinity extensions, nested values and string escapes are outside the
fragment.)  Numbers are kept in their exact decimal form `JNum`; their
numeric value is`jnumVal : JNum → ℚ`. -/

def isWsChar (c : Char) : Bool := c = ' ' || c = '\t' || c = '\n' || c = '\r'

def skipWs : List Char → List Char
  | [] => []
  | c :: rest => if isWsChar c then skipWs rest else c :: rest

def isDigitC (c : Char) : Bool := 48 ≤ c.toNat && c.toNat ≤ 57

def digitVal (c : Char) : Nat := c.toNat - 48

def digitChar (d : Nat) : Char := Char.ofNat (48 + d)

/-- Reads a maximal run of decimal digits from the front of the input. -/
def readDigits : List Char → List Nat × List Char
  | [] => ([], [])
  | c :: rest =>
    if isDigitC c then
      let p := readDigits rest
      (digitVal c :: p.1, p.2)
    else ([], c :: rest)

/-- A JSON number literal in its exact decimal shape: sign, integer digits,
optional fraction digits, optional exponent (sign and digits).  The `'+'`
exponent sign and the case of `e` are normalised away at parse time. -/
structure JNum where
  neg : Bool
  intDigits : List Nat
  frac : Option (List Nat)
  expPart : Option (Bool × List Nat)
deriving DecidableEq

/-- A value of the JSON fragment: a number or an escape-free string. -/
inductive JVal where
  | num (n : JNum)
  | str (s : List Char)
deriving DecidableEq

/-- JSON forbids superfluous leading zeros in the integer part. -/
def noLeadZero : List Nat → Bool
  | 0 :: _ :: _ => false
  | _ => true

def parseSign : List Char → Bool × List Char
  | [] => (false, [])
  | c :: rest => if c = '-' then (true, rest) else (false, c :: rest)

def parseFrac : List Char → Option (Option (List Nat) × List Char)
  | [] => some (none, [])
  | c :: rest =>
    if c = '.' then
      match readDigits rest with
      | ([], _) => none
      | (fs, r) => some (some fs, r)
    else some (none, c :: rest)

def parseExpSign : List Char → Bool × List Char
  | [] => (false, [])
  | c :: rest =>
    if c = '-' then (true, rest)
    else if c = '+' then (false, rest)
    else (false, c :: rest)

def parseExpTail (cs : List Char) : Option (Option (Bool × List Nat) × List Char) :=
  let p := parseExpSign cs
  match readDigits p.2 with
  | ([], _) => none
  | (es, r) => some (some (p.1, es), r)

def parseExp : List Char → Option (Option (Bool × List Nat) × List Char)
  | [] => some (none, [])
  | c :: rest =>
    if c = 'e' || c = 'E' then parseExpTail rest else some (none, c :: rest)

/-- Parses one JSON number literal (`-?(0|[1-9]\d*)(\.\d+)?([eE][+-]?\d+)?`). -/
def parseJNum (cs : List Char) : Option (JNum × List Char) :=
  let s := parseSign cs
  match readDigits s.2 with
  | ([], _) => none
  | (ds, cs2) =>
    if noLeadZero ds then
      match parseFrac cs2 with
      | none => none
      | some (fr, cs3) =>
        match parseExp cs3 with
        | none => none
        | some (ex, cs4) => some (⟨s.1, ds, fr, ex⟩, cs4)
    else none

/-- Reads the body of a string literal up to the closing quote; escape
sequences are outside the modelled fragment. -/
def readStrChars : List Char → Option (List Char × List Char)
  | [] => none
  | c :: rest =>
    if c = '"' then some ([], rest)
    else if c = '\\' then none
    else
      match readStrChars rest with
      | none => none
      | some (s, r) => some (c :: s, r)

def parseJVal (cs : List Char) : Option (JVal × List Char) :=
  match skipWs cs with
  | [] => none
  | c :: rest =>
    if c = '"' then
      match readStrChars rest with
      | none => none
      | some (s, r) => some (.str s, r)
    else
      match parseJNum (c :: rest) with
      | none => none
      | some (n, r) => some (.num n, r)

/-- Parses the comma-separated items of an array, consuming the closing
bracket.  Fuel bounds the recursion; each item consumes at least one
character, so `input length + 1` fuel is always enough. -/
def parseItems (fuel : Nat) (cs : List Char) : Option (List JVal × List Char) :=
  match fuel with
  | 0 => none
  | fuel' + 1 =>
    match parseJVal cs with
    | none => none
    | some (v, cs1) =>
      match skipWs cs1 with
      | [] => none
      | c :: cs3 =>
        if c = ',' then
          match parseItems fuel' (skipWs cs3) with
          | none => none
          | some (vs, r) => some (v :: vs, r)
        else if c = ']' then some ([v], cs3)
        else none

/-- Models `json.loads` on a flat array of numbers and escape-free strings;
the whole input must be consumed (up to trailing whitespace). -/
def jsonLoadsArr (s : String) : Option (List JVal) :=
  match skipWs s.data with
  | [] => none
  | c :: cs1 =>
    if c = '[' then
      match skipWs cs1 with
      | [] => none
      | c2 :: cs2 =>
        if c2 = ']' then (if skipWs cs2 = [] then some [] else none)
        else
          match parseItems ((c2 :: cs2).length + 1) (c2 :: cs2) with
          | none => none
          | some (vs, rest) => if skipWs rest = [] then some vs else none
    else none

/-! Serialization of the fragment, for the round-trip property. -/

def printDigits (ds : List Nat) : List Char := ds.map digitChar

def fracPrint : Option (List Nat) → List Char
  | none => []
  | some fs => '.' :: printDigits fs

def expPrint : Option (Bool × List Nat) → List Char
  | none => []
  | some p => 'e' :: ((if p.1 then ['-'] else []) ++ printDigits p.2)

def printJNum (n : JNum) : List Char :=
  (if n.neg then ['-'] else []) ++ printDigits n.intDigits ++ fracPrint n.frac ++
    expPrint n.expPart

def printJVal : JVal → List Char
  | .num n => printJNum n
  | .str s => '"' :: (s ++ ['"'])

def printItems : List JVal → List Char
  | [] => [']']
  | [v] => printJVal v ++ [']']
  | v :: vs => printJVal v ++ ',' :: ' ' :: printItems vs

/-- Re-serializes a parsed array. -/
def printJArr (vs : List JVal) : String := ⟨'[' :: printItems vs⟩

/-! Numeric value of a parsed number, as an exact rational. -/

def digitsVal (ds : List Nat) : Nat := List.foldl (fun a d => a * 10 + d) 0 ds

def jnumVal (n : JNum) : ℚ :=
  let ip : ℚ := mkRat (Int.ofNat (digitsVal n.intDigits)) 1
  let fr : ℚ :=
    match n.frac with
    | none => 0
    | some fs => mkRat (Int.ofNat (digitsVal fs)) (10 ^ fs.length)
  let mag : ℚ := ip + fr
  let signed : ℚ := if n.neg then -mag else mag
  match n.expPart with
  | none => signed
  | some p =>
    if p.1 then signed / mkRat (Int.ofNat (10 ^ digitsVal p.2)) 1
    else signed * mkRat (Int.ofNat (10 ^ digitsVal p.2)) 1

def jvalVal : JVal → Option ℚ
  | .num n => some (jnumVal n)
  | .str _ => none

/-! ## Data model of the migration script

`SourceRecord` is a row of `rag_chunks` as returned by `fetch_batch`'s
SELECT (all thirteen columns).  The `embedding` column arrives either as
NULL, as the pgvector string serialization, or as a native array value.
`meta` is a jsonb object, modelled as a key-value list (NULL-able). -/

inductive EmbVal where
  | null
  | vstr (s : String)
  | varr (xs : List JVal)
deriving DecidableEq

structure SourceRecord where
  id : Nat
  season_year : Option Int
  season_id : Option Int
  league_type_code : Option String
  team_id : Option Int
  player_id : Option Int
  source_table : String
  source_row_id : Int
  title : Option String
  content : Option String
  embedding : EmbVal
  meta : Option (List (String × String))
  created_at : Option String
deriving DecidableEq

/-- Content of `migration_progress.json`. -/
structure Progress where
  last_id : Nat
  migrated_count : Nat
  total_count : Nat
deriving DecidableEq

/-- Constructor arguments of `FirebaseMigration` that the claims depend on,
plus the wall-clock timestamp used by the Supabase annotation. -/
structure MigConfig where
  batch_size : Nat
  dry_run : Bool
  skip_storage : Bool
  now : String
deriving DecidableEq

/-- Fault model for the external stores: whether the blob upload, the
Firestore `doc_ref.set`, or the Supabase meta UPDATE raises for a given
record id.  A fault-free environment has all three constantly `false`. -/
structure Env where
  blobFail : Nat → Bool
  docFail : Nat → Bool
  annotFail : Nat → Bool

/-- The document payload written to Firestore for one chunk.  `content` is
`none` when the key is absent, `some v` when the key is present with the
(NULL-able) source content `v`.  `migratedAt` is the server-timestamp
sentinel and is omitted.  -/
structure FirestoreDoc where
  id : Nat
  seasonYear : Option Int
  seasonId : Option Int
  leagueTypeCode : Option String
  teamId : Option Int
  playerId : Option Int
  sourceTable : String
  sourceRowId : Int
  title : Option String
  meta : Option (List (String × String))
  createdAt : Option String
  embedding : Option (List JVal)
  storagePath : Option String
  contentLength : Option Nat
  content : Option (Option String)
deriving DecidableEq

/-- The jsonb object merged into `rag_chunks.meta` by the annotation
UPDATE. -/
structure AnnotPayload where
  firebase_doc_id : String
  firebase_migrated_at : String
  firebase_storage_path : Option String
deriving DecidableEq

/-- Log of writes performed against the three external stores. -/
structure Effects where
  docWrites : List (Nat × FirestoreDoc)
  blobWrites : List (String × String)
  metaUpdates : List (Nat × AnnotPayload)
deriving DecidableEq

def emptyEff : Effects := ⟨[], [], []⟩

def Effects.app (a b : Effects) : Effects :=
  ⟨a.docWrites ++ b.docWrites, a.blobWrites ++ b.blobWrites, a.metaUpdates ++ b.metaUpdates⟩

instance : Append Effects := ⟨Effects.app⟩

/-- Python truthiness of an optional string: `None` and `""` are falsy. -/
def truthyOptStr : Option String → Bool
  | none => false
  | some s => !(s = "")

/-! ## The per-record pipeline (`FirebaseMigration.migrate_chunk`) -/

/-- Blob path `rag_chunks/<source_table>/<id>.txt`. -/
def blobPathOf (r : SourceRecord) : String :=
  "rag_chunks/" ++ r.source_table ++ "/" ++ toString r.id ++ ".txt"

/-- Step A of `migrate_chunk`: optional Storage upload.  The bucket exists
iff `skip_storage` is false, so the `self.bucket` conjunct is redundant.
The path is recorded as `storage_path` even in dry-run (the upload itself
is skipped). -/
def stepStorage (cfg : MigConfig) (env : Env) (r : SourceRecord) :
    Except String (Option String × Effects) :=
  if !cfg.skip_storage && truthyOptStr r.content then
    if cfg.dry_run then .ok (some (blobPathOf r), emptyEff)
    else if env.blobFail r.id then .error "storage upload failed"
    else .ok (some (blobPathOf r), ⟨[], [(blobPathOf r, r.content.getD "")], []⟩)
  else .ok (none, emptyEff)

/-- Embedding handling inside `migrate_chunk`: skipped when falsy, parsed
with `json.loads` when a string (raising on malformed text), used as-is
when a native array. -/
def stepEmbedding (r : SourceRecord) : Except String (Option (List JVal)) :=
  match r.embedding with
  | .null => .ok none
  | .varr xs => if xs.isEmpty then .ok none else .ok (some xs)
  | .vstr s =>
    if s = "" then .ok none
    else
      match jsonLoadsArr s with
      | some vs => .ok (some vs)
      | none => .error "embedding is not valid JSON"

/-- The `firestore_data` dict as built by `migrate_chunk`: scalar fields
copied verbatim, then either `storagePath`/`contentLength` or an inline
`content` key depending on whether a blob path was produced. -/
def buildDoc (r : SourceRecord) (storage_path : Option String)
    (emb : Option (List JVal)) : FirestoreDoc :=
  { id := r.id
    seasonYear := r.season_year
    seasonId := r.season_id
    leagueTypeCode := r.league_type_code
    teamId := r.team_id
    playerId := r.player_id
    sourceTable := r.source_table
    sourceRowId := r.source_row_id
    title := r.title
    meta := r.meta
    createdAt := r.created_at
    embedding := emb
    storagePath := storage_path
    contentLength :=
      match storage_path with
      | some _ => some (r.content.getD "").length
      | none => none
    content :=
      match storage_path with
      | some _ => none
      | none => some r.content }

/-- Body of `migrate_chunk`'s try-block.  An error carries the effects
already performed before the exception was raised (e.g. a blob uploaded
before a failing `doc_ref.set`). -/
def migrateChunkCore (cfg : MigConfig) (env : Env) (r : SourceRecord) :
    Except (String × Effects) (FirestoreDoc × Effects) :=
  match stepStorage cfg env r with
  | .error m => .error (m, emptyEff)
  | .ok (storage_path, eff1) =>
    match stepEmbedding r with
    | .error m => .error (m, eff1)
    | .ok emb =>
      let doc := buildDoc r storage_path emb
      if cfg.dry_run then .ok (doc, eff1)
      else if env.docFail r.id then .error ("firestore set failed", eff1)
      else
        let eff2 := eff1 ++ ⟨[(r.id, doc)], [], []⟩
        if env.annotFail r.id then .error ("supabase update failed", eff2)
        else
          .ok (doc, eff2 ++ ⟨[], [], [(r.id, ⟨toString r.id, cfg.now, storage_path⟩)]⟩)

/-- Outcome of `migrate_chunk`: its boolean return value, the writes it
performed, and the error line it printed (tagged with the chunk id). -/
structure ChunkOut where
  success : Bool
  eff : Effects
  log : List (Nat × String)
deriving DecidableEq

/-- The `migrate_chunk` wrapper: every exception of the body is caught,
logged with the record id, and turned into a `False` return. -/
def migrate_chunk (cfg : MigConfig) (env : Env) (r : SourceRecord) : ChunkOut :=
  match migrateChunkCore cfg env r with
  | .ok p => ⟨true, p.2, []⟩
  | .error p => ⟨false, p.2, [(r.id, p.1)]⟩

/-! ## The batch loop (`FirebaseMigration.run`) -/

def idGt (last : Nat) (r : SourceRecord) : Bool := decide (last < r.id)

def recLeP (a b : SourceRecord) : Prop := a.id ≤ b.id

instance : DecidableRel recLeP := fun a b => inferInstanceAs (Decidable (a.id ≤ b.id))

instance : IsTotal SourceRecord recLeP := ⟨fun a b => Nat.le_total a.id b.id⟩

instance : IsTrans SourceRecord recLeP := ⟨fun _ _ _ h1 h2 => Nat.le_trans h1 h2⟩

/-- Rows with `id > last`, ordered ascending by id (the SELECT's WHERE and
ORDER BY). -/
def sortedRemaining (store : List SourceRecord) (last : Nat) : List SourceRecord :=
  List.insertionSort recLeP (store.filter (idGt last))

/-- `fetch_batch`: at most `batch_size` rows with `id > last_id`, ordered
by id. -/
def fetch_batch (store : List SourceRecord) (last : Nat) (bs : Nat) : List SourceRecord :=
  (sortedRemaining store last).take bs

/-- `get_total_count`: `COUNT(*)` of rows with `id > last_id`. -/
def get_total_count (store : List SourceRecord) (last : Nat) : Nat :=
  (store.filter (idGt last)).length

/-- Result of the per-batch for-loop: number of successes, writes
performed, error lines printed. -/
def processBatch (cfg : MigConfig) (env : Env) : List SourceRecord → Nat × Effects × List (Nat × String)
  | [] => (0, emptyEff, [])
  | r :: rest =>
    let o := migrate_chunk cfg env r
    let p := processBatch cfg env rest
    ((if o.success then 1 else 0) + p.1, o.eff ++ p.2.1, o.log ++ p.2.2)

/-- In-memory state of one `run`: the progress counters, the progress file
on disk, the write log, the printed error lines, and the number of loop
iterations executed. -/
structure LoopState where
  last_id : Nat
  migrated : Nat
  file : Option Progress
  effects : Effects
  logs : List (Nat × String)
  iters : Nat
deriving DecidableEq

/-- One non-empty batch: process every chunk, set `last_id` to the final
chunk's id, add the successes to `migrated_count`, and persist the
checkpoint (`_save_progress`). -/
def stepBatch (cfg : MigConfig) (env : Env) (total : Nat) (s : LoopState)
    (batch : List SourceRecord) : LoopState :=
  let p := processBatch cfg env batch
  let newLast :=
    match batch.getLast? with
    | some c => c.id
    | none => s.last_id
  { last_id := newLast
    migrated := s.migrated + p.1
    file := some ⟨newLast, s.migrated + p.1, total⟩
    effects := s.effects ++ p.2.1
    logs := s.logs ++ p.2.2
    iters := s.iters }

/-- The `while True` batch loop.  Fuel bounds the iterations; `none` means
the fuel ran out before the loop reached one of its two `break`s (the
termination theorem shows `remaining + 1` fuel always suffices). -/
def runLoopF (cfg : MigConfig) (env : Env) (store : List SourceRecord) (total : Nat) :
    Nat → LoopState → Option LoopState
  | 0, _ => none
  | fuel + 1, s =>
    let batch := fetch_batch store s.last_id cfg.batch_size
    if batch.isEmpty then some { s with iters := s.iters + 1 }
    else
      let s' := stepBatch cfg env total { s with iters := s.iters + 1 } batch
      if batch.length < cfg.batch_size then some s'
      else runLoopF cfg env store total fuel s'

/-- `_load_progress`: file contents if present, else the zero checkpoint. -/
def load_progress (file : Option Progress) : Progress :=
  file.getD ⟨0, 0, 0⟩

/-- Result of one `run` invocation: final in-memory/on-disk state, and the
`migrated_count` printed by the completion summary (`none` when the run
took the early `return` for an empty backlog and printed no summary). -/
structure RunResult where
  st : LoopState
  summaryCount : Option Nat
  total : Nat
deriving DecidableEq

/-- `FirebaseMigration.run`: load progress, count the backlog, return early
if it is empty, otherwise drive the batch loop, print the summary, and —
only when not in dry-run and the progress file exists — delete the file. -/
def run (cfg : MigConfig) (env : Env) (store : List SourceRecord)
    (fileInit : Option Progress) : RunResult :=
  let p := load_progress fileInit
  let total := get_total_count store p.last_id
  let s0 : LoopState := ⟨p.last_id, p.migrated_count, fileInit, emptyEff, [], 0⟩
  if total = 0 then ⟨s0, none, total⟩
  else
    let s := (runLoopF cfg env store total (total + 1) s0).getD s0
    let file' := if !cfg.dry_run && s.file.isSome then none else s.file
    ⟨{ s with file := file' }, some s.migrated, total⟩

/-! ## `FirebaseMigration.cleanup_supabase` -/

/-- Python's `str.strip()` restricted to ASCII whitespace. -/
def pyStrip (s : String) : String :=
  ⟨((s.data.dropWhile isWsChar).reverse.dropWhile isWsChar).reverse⟩

/-- The jsonb `meta ? key` existence test (NULL meta contains nothing). -/
def metaHasKey (m : Option (List (String × String))) (k : String) : Bool :=
  match m with
  | none => false
  | some kvs => kvs.any (fun p => p.1 = k)

/-- The UPDATE's per-row effect: content and embedding set to NULL, every
other column untouched. -/
def cleanupRecord (r : SourceRecord) : SourceRecord :=
  { r with content := none, embedding := .null }

/-- `cleanup_supabase`: requires `confirm=True` and the literal typed
response `YES` (stripped); then nulls `content`/`embedding` exactly on the
rows whose `meta` contains `firebase_doc_id`, reporting the affected row
count.  Returns the store afterwards and `some rowcount`, or the untouched
store and `none` when either gate fails. -/
def cleanup_supabase (confirm : Bool) (response : String)
    (store : List SourceRecord) : List SourceRecord × Option Nat :=
  if !confirm then (store, none)
  else if !(pyStrip response = "YES") then (store, none)
  else
    (store.map (fun r => if metaHasKey r.meta "firebase_doc_id" then cleanupRecord r else r),
     some (store.countP (fun r => metaHasKey r.meta "firebase_doc_id")))

/-! ## The moderation endpoint (`app/routers/moderation.py`) -/

/-- Settings consumed by `safety_check`; the API key is falsy when unset or
empty. -/
structure ModSettings where
  gemini_api_key : Option String
  gemini_model : String

/-- Outcome of the endpoint's try-block environment: the Gemini call plus
`json.loads` either raises somewhere (credentials, network, malformed
response text) or produces a parsed value. -/
inductive GenOutcome (J : Type) where
  | raised (msg : String)
  | parsed (j : J)

/-- Response of the endpoint: an HTTPException, one of the literal
fail-open dicts, or the parsed model output passed through. -/
inductive ModResult (J : Type) where
  | httpError (statusCode : Nat) (detail : String)
  | fixedResp (category : String) (reason : String) (action : String)
  | modelResp (j : J)
deriving DecidableEq

/-- The `/moderation/safety-check` handler: 400 on missing/empty content,
fail-open `SAFE`/`ALLOW` when the API key is unset or when anything in the
try-block raises, otherwise the model's parsed JSON verbatim. -/
def safety_check {J : Type} (settings : ModSettings) (payload_content : Option String)
    (outcome : GenOutcome J) : ModResult J :=
  let content := payload_content.getD ""
  if content = "" then .httpError 400 "Content is required"
  else if !truthyOptStr settings.gemini_api_key then
    .fixedResp "SAFE" "API Key not configured" "ALLOW"
  else
    match outcome with
    | .raised msg => .fixedResp "SAFE" ("System error: " ++ msg) "ALLOW"
    | .parsed j => .modelResp j

/-! ## Correctness of the JSON fragment parser -/

lemma digitVal_lt10 {c : Char} (h : isDigitC c = true) : digitVal c < 10 := by
  unfold isDigitC at h
  simp only [Bool.and_eq_true, decide_eq_true_eq] at h
  unfold digitVal
  omega

lemma isDigitC_digitChar {d : Nat} (h : d < 10) : isDigitC (digitChar d) = true := by
  interval_cases d <;> decide

lemma digitVal_digitChar {d : Nat} (h : d < 10) : digitVal (digitChar d) = d := by
  interval_cases d <;> decide

/-- A decimal digit character is none of the structural characters of the
fragment and is not whitespace. -/
lemma digitChar_facts {d : Nat} (h : d < 10) :
    isWsChar (digitChar d) = false ∧ digitChar d ≠ '-' ∧ digitChar d ≠ '+' ∧
      digitChar d ≠ '.' ∧ digitChar d ≠ 'e' ∧ digitChar d ≠ 'E' ∧
      digitChar d ≠ '"' ∧ digitChar d ≠ ']' ∧ digitChar d ≠ ',' := by
  interval_cases d <;> decide

lemma skipWs_cons_of_not_ws {c : Char} (h : isWsChar c = false) (l : List Char) :
    skipWs (c :: l) = c :: l := by
  simp [skipWs, h]

lemma skipWs_cons_of_ws {c : Char} (h : isWsChar c = true) (l : List Char) :
    skipWs (c :: l) = skipWs l := by
  simp [skipWs, h]

lemma readDigits_all_lt : ∀ cs : List Char, ∀ d ∈ (readDigits cs).1, d < 10 := by
  intro cs
  induction cs with
  | nil => simp [readDigits]
  | cons c rest ih =>
    by_cases h : isDigitC c
    · simp only [readDigits, h, if_true]
      intro d hd
      rcases List.mem_cons.mp hd with rfl | hd
      · exact digitVal_lt10 h
      · exact ih d hd
    · simp [readDigits, h]

lemma readDigits_not_digit {cs : List Char}
    (h : ∀ c, cs.head? = some c → isDigitC c = false) : readDigits cs = ([], cs) := by
  cases cs with
  | nil => rfl
  | cons c rest => simp [readDigits, h c rfl]

lemma readDigits_print {ds : List Nat} {rest : List Char} (hds : ∀ d ∈ ds, d < 10)
    (hr : ∀ c, rest.head? = some c → isDigitC c = false) :
    readDigits (printDigits ds ++ rest) = (ds, rest) := by
  induction ds with
  | nil => simpa [printDigits] using readDigits_not_digit hr
  | cons d ds ih =>
    have hd : d < 10 := hds d (List.mem_cons_self ..)
    have ih' := ih (fun x hx => hds x (List.mem_cons_of_mem _ hx))
    simp only [printDigits, List.map_cons, List.cons_append, readDigits,
      isDigitC_digitChar hd, if_true]
    rw [show List.map digitChar ds = printDigits ds from rfl] at *
    simp [List.append_eq, ih', digitVal_digitChar hd]

/-- Well-formedness of a digit run: nonempty, all digits below ten. -/
def digitsOk (ds : List Nat) : Prop := ds ≠ [] ∧ ∀ d ∈ ds, d < 10

/-- Exactly the number shapes the parser can produce. -/
def JNum.valid (n : JNum) : Prop :=
  digitsOk n.intDigits ∧ noLeadZero n.intDigits = true ∧
    (∀ fs, n.frac = some fs → digitsOk fs) ∧ ∀ p, n.expPart = some p → digitsOk p.2

/-- Exactly the string bodies the parser can produce. -/
def strOk (s : List Char) : Prop := ∀ c ∈ s, c ≠ '"' ∧ c ≠ '\\'

def JVal.valid : JVal → Prop
  | .num n => n.valid
  | .str s => strOk s

lemma parseFrac_valid {cs : List Char} {fr : Option (List Nat)} {r : List Char}
    (h : parseFrac cs = some (fr, r)) : ∀ fs, fr = some fs → digitsOk fs := by
  intro fs hfr
  cases cs with
  | nil =>
    simp only [parseFrac, Option.some.injEq, Prod.mk.injEq] at h
    rw [← h.1] at hfr
    cases hfr
  | cons c rest =>
    by_cases hc : c = '.'
    · rcases hrd : readDigits rest with ⟨ds, r2⟩
      cases ds with
      | nil => simp [parseFrac, hc, hrd] at h
      | cons d ds' =>
        simp only [parseFrac, hc, if_true, hrd, Option.some.injEq, Prod.mk.injEq] at h
        rw [← h.1] at hfr
        cases hfr
        have := readDigits_all_lt rest
        rw [hrd] at this
        exact ⟨List.cons_ne_nil _ _, this⟩
    · simp only [parseFrac, hc, if_false, Option.some.injEq, Prod.mk.injEq] at h
      rw [← h.1] at hfr
      cases hfr

lemma parseExpTail_valid {cs : List Char} {ex : Option (Bool × List Nat)} {r : List Char}
    (h : parseExpTail cs = some (ex, r)) : ∀ p, ex = some p → digitsOk p.2 := by
  intro p hex
  rcases hrd : readDigits (parseExpSign cs).2 with ⟨ds, r2⟩
  cases ds with
  | nil => simp [parseExpTail, hrd] at h
  | cons d ds' =>
    simp only [parseExpTail, hrd, Option.some.injEq, Prod.mk.injEq] at h
    rw [← h.1] at hex
    cases hex
    have := readDigits_all_lt (parseExpSign cs).2
    rw [hrd] at this
    exact ⟨List.cons_ne_nil _ _, this⟩

lemma parseExp_valid {cs : List Char} {ex : Option (Bool × List Nat)} {r : List Char}
    (h : parseExp cs = some (ex, r)) : ∀ p, ex = some p → digitsOk p.2 := by
  cases cs with
  | nil =>
    intro p hex
    simp only [parseExp, Option.some.injEq, Prod.mk.injEq] at h
    rw [← h.1] at hex
    cases hex
  | cons c rest =>
    by_cases hc : (c = 'e' || c = 'E') = true
    · rw [parseExp, if_pos hc] at h
      exact parseExpTail_valid h
    · intro p hex
      rw [parseExp, if_neg hc] at h
      simp only [Option.some.injEq, Prod.mk.injEq] at h
      rw [← h.1] at hex
      cases hex

lemma parseJNum_valid {cs : List Char} {n : JNum} {r : List Char}
    (h : parseJNum cs = some (n, r)) : n.valid := by
  rcases hrd : readDigits (parseSign cs).2 with ⟨ds, cs2⟩
  cases ds with
  | nil => simp [parseJNum, hrd] at h
  | cons d ds' =>
    have hds : ∀ x ∈ d :: ds', x < 10 := by
      have := readDigits_all_lt (parseSign cs).2
      rwa [hrd] at this
    by_cases hlz : noLeadZero (d :: ds') = true
    · rcases hfr : parseFrac cs2 with _ | ⟨fr, cs3⟩
      · simp [parseJNum, hrd, hlz, hfr] at h
      · rcases hex : parseExp cs3 with _ | ⟨ex, cs4⟩
        · simp [parseJNum, hrd, hlz, hfr, hex] at h
        · simp only [parseJNum, hrd, hlz, if_true, hfr, hex, Option.some.injEq,
            Prod.mk.injEq] at h
          rw [← h.1]
          exact ⟨⟨List.cons_ne_nil _ _, hds⟩, hlz, parseFrac_valid hfr,
            parseExp_valid hex⟩
    · simp [parseJNum, hrd, hlz] at h

lemma readStrChars_ok {cs s r : List Char} (h : readStrChars cs = some (s, r)) :
    strOk s := by
  induction cs generalizing s r with
  | nil => cases h
  | cons c rest ih =>
    by_cases hq : c = '"'
    · simp only [readStrChars, hq, if_true, Option.some.injEq, Prod.mk.injEq] at h
      rw [← h.1]
      intro x hx
      cases hx
    · by_cases hb : c = '\\'
      · simp [readStrChars, hq, hb] at h
      · rcases hrs : readStrChars rest with _ | ⟨s', r'⟩
        · simp [readStrChars, hq, hb, hrs] at h
        · simp only [readStrChars, hq, hb, if_false, hrs, Option.some.injEq,
            Prod.mk.injEq] at h
          rw [← h.1]
          intro x hx
          rcases List.mem_cons.mp hx with rfl | hx
          · exact ⟨hq, hb⟩
          · exact ih hrs x hx

lemma parseJVal_valid {cs : List Char} {v : JVal} {r : List Char}
    (h : parseJVal cs = some (v, r)) : v.valid := by
  rcases hws : skipWs cs with _ | ⟨c, rest⟩
  · simp [parseJVal, hws] at h
  · by_cases hq : c = '"'
    · rcases hrs : readStrChars rest with _ | ⟨s', r'⟩
      · simp [parseJVal, hws, hq, hrs] at h
      · simp only [parseJVal, hws, hq, if_true, hrs, Option.some.injEq,
          Prod.mk.injEq] at h
        rw [← h.1]
        exact readStrChars_ok hrs
    · rcases hn : parseJNum (c :: rest) with _ | ⟨n', r'⟩
      · simp [parseJVal, hws, hq, hn] at h
      · simp only [parseJVal, hws, hq, if_false, hn, Option.some.injEq,
          Prod.mk.injEq] at h
        rw [← h.1]
        exact parseJNum_valid hn

lemma parseItems_valid {fuel : Nat} {cs : List Char} {vs : List JVal} {r : List Char}
    (h : parseItems fuel cs = some (vs, r)) : ∀ v ∈ vs, v.valid := by
  induction fuel generalizing cs vs r with
  | zero => cases h
  | succ fuel' ih =>
    rcases hv : parseJVal cs with _ | ⟨v1, cs1⟩
    · simp [parseItems, hv] at h
    · rcases hws : skipWs cs1 with _ | ⟨c, cs3⟩
      · simp [parseItems, hv, hws] at h
      · by_cases hc : c = ','
        · rcases hrec : parseItems fuel' (skipWs cs3) with _ | ⟨vs', r'⟩
          · simp [parseItems, hv, hws, hc, hrec] at h
          · simp only [parseItems, hv, hws, hc, if_true, hrec, Option.some.injEq,
              Prod.mk.injEq] at h
            rw [← h.1]
            intro x hx
            rcases List.mem_cons.mp hx with rfl | hx
            · exact parseJVal_valid hv
            · exact ih hrec x hx
        · by_cases hbr : c = ']'
          · simp only [parseItems, hv, hws] at h
            rw [if_neg hc, if_pos hbr] at h
            simp only [Option.some.injEq, Prod.mk.injEq] at h
            rw [← h.1]
            intro x hx
            rcases List.mem_cons.mp hx with rfl | hx
            · exact parseJVal_valid hv
            · cases hx
          · simp [parseItems, hv, hws, hc, hbr] at h

/-- Every array the parser accepts consists of valid values. -/
lemma jsonLoadsArr_valid {s : String} {vs : List JVal}
    (h : jsonLoadsArr s = some vs) : ∀ v ∈ vs, v.valid := by
  rcases hws : skipWs s.data with _ | ⟨c, cs1⟩
  · simp [jsonLoadsArr, hws] at h
  · by_cases hbk : c = '['
    · rcases hws2 : skipWs cs1 with _ | ⟨c2, cs2⟩
      · simp [jsonLoadsArr, hws, hbk, hws2] at h
      · by_cases hcl : c2 = ']'
        · by_cases hre : skipWs cs2 = []
          · simp only [jsonLoadsArr, hws, hbk, if_true, hws2, hcl, hre,
              Option.some.injEq] at h
            rw [← h]
            intro x hx
            cases hx
          · simp [jsonLoadsArr, hws, hbk, hws2, hcl, hre] at h
        · rcases hpi : parseItems (cs2.length + 1 + 1) (c2 :: cs2) with _ | ⟨vs', r'⟩
          · simp [jsonLoadsArr, hws, hbk, hws2, hcl, hpi] at h
          · by_cases hre : skipWs r' = []
            · simp only [jsonLoadsArr, hws, hbk, if_true, hws2, hcl, if_false,
                List.length_cons, hpi, hre, Option.some.injEq] at h
              rw [← h]
              exact parseItems_valid hpi
            · simp [jsonLoadsArr, hws, hbk, hws2, hcl, hpi, hre] at h
    · simp [jsonLoadsArr, hws, hbk] at h

/-! Print-reparse: the serializer's output parses back to the identical
parsed structure (hence to the same numeric sequence). -/

/-- The parse position right after a printed number inside an array: a
comma or the closing bracket. -/
def numStop (cs : List Char) : Prop := cs.head? = some ',' ∨ cs.head? = some ']'

lemma numStop_facts {rest : List Char} (hstop : numStop rest) :
    ∀ c, rest.head? = some c → isDigitC c = false ∧ ¬c = '.' ∧ ¬c = 'e' ∧ ¬c = 'E' ∧
      ¬c = '-' ∧ ¬c = '+' := by
  intro c hc
  rcases hstop with h | h <;> rw [h, Option.some.injEq] at hc <;> rw [← hc] <;> decide

lemma parseSign_dash (l : List Char) : parseSign ('-' :: l) = (true, l) := by
  simp [parseSign]

lemma parseSign_digits {ds : List Nat} {r : List Char} (hne : ds ≠ [])
    (hlt : ∀ d ∈ ds, d < 10) :
    parseSign (printDigits ds ++ r) = (false, printDigits ds ++ r) := by
  rcases ds with _ | ⟨d, ds'⟩
  · exact absurd rfl hne
  · have h0 : d < 10 := hlt _ (List.mem_cons_self _ _)
    show parseSign (digitChar d :: (printDigits ds' ++ r)) = _
    rw [parseSign, if_neg (digitChar_facts h0).2.1]
    rfl

lemma parseExpSign_dash (l : List Char) : parseExpSign ('-' :: l) = (true, l) := by
  simp [parseExpSign]

lemma parseExpSign_digits {ds : List Nat} {r : List Char} (hne : ds ≠ [])
    (hlt : ∀ d ∈ ds, d < 10) :
    parseExpSign (printDigits ds ++ r) = (false, printDigits ds ++ r) := by
  rcases ds with _ | ⟨d, ds'⟩
  · exact absurd rfl hne
  · have h0 : d < 10 := hlt _ (List.mem_cons_self _ _)
    show parseExpSign (digitChar d :: (printDigits ds' ++ r)) = _
    rw [parseExpSign, if_neg (digitChar_facts h0).2.1, if_neg (digitChar_facts h0).2.2.1]
    rfl

lemma parseFrac_no_dot {cs : List Char} (h : ∀ c, cs.head? = some c → ¬c = '.') :
    parseFrac cs = some (none, cs) := by
  cases cs with
  | nil => rfl
  | cons c rest => simp [parseFrac, h c rfl]

lemma parseFrac_print {fs : List Nat} {r : List Char} (hok : digitsOk fs)
    (hr : ∀ c, r.head? = some c → isDigitC c = false) :
    parseFrac ('.' :: (printDigits fs ++ r)) = some (some fs, r) := by
  obtain ⟨hne, hlt⟩ := hok
  rcases fs with _ | ⟨f, fs'⟩
  · exact absurd rfl hne
  · rw [parseFrac, if_pos rfl, readDigits_print hlt hr]

lemma parseExpTail_print {en : Bool} {es : List Nat} {r : List Char} (hok : digitsOk es)
    (hr : ∀ c, r.head? = some c → isDigitC c = false) :
    parseExpTail ((if en then ['-'] else []) ++ (printDigits es ++ r)) =
      some (some (en, es), r) := by
  obtain ⟨hne, hlt⟩ := hok
  rcases es with _ | ⟨e1, es'⟩
  · exact absurd rfl hne
  · cases en
    · show parseExpTail (printDigits (e1 :: es') ++ r) = _
      unfold parseExpTail
      simp only [parseExpSign_digits (List.cons_ne_nil _ _) hlt, readDigits_print hlt hr]
    · show parseExpTail ('-' :: (printDigits (e1 :: es') ++ r)) = _
      unfold parseExpTail
      simp only [parseExpSign_dash, readDigits_print hlt hr]

lemma parseExp_not_e {cs : List Char} (h : ∀ c, cs.head? = some c → ¬c = 'e' ∧ ¬c = 'E') :
    parseExp cs = some (none, cs) := by
  cases cs with
  | nil => rfl
  | cons c rest => simp [parseExp, (h c rfl).1, (h c rfl).2]

lemma parseExp_print {ex : Option (Bool × List Nat)} {r : List Char}
    (hok : ∀ p, ex = some p → digitsOk p.2)
    (hr : ∀ c, r.head? = some c →
      isDigitC c = false ∧ ¬c = 'e' ∧ ¬c = 'E' ∧ ¬c = '-' ∧ ¬c = '+') :
    parseExp (expPrint ex ++ r) = some (ex, r) := by
  rcases ex with _ | ⟨en, es⟩
  · exact parseExp_not_e (fun c hc => ⟨(hr c hc).2.1, (hr c hc).2.2.1⟩)
  · show parseExp ('e' :: (((if en then ['-'] else []) ++ printDigits es) ++ r)) = _
    simp only [parseExp, if_pos (by decide : (('e' = 'e') || ('e' = 'E')) = true)]
    rw [List.append_assoc]
    exact parseExpTail_print (hok _ rfl)
      (fun c hc => (hr c hc).1)

lemma parseJNum_print {n : JNum} {rest : List Char} (hv : n.valid) (hstop : numStop rest) :
    parseJNum (printJNum n ++ rest) = some (n, rest) := by
  obtain ⟨nneg, ds, fr, ex⟩ := n
  obtain ⟨⟨hne, hlt⟩, hlz, hfr, hex⟩ := hv
  have hrest := numStop_facts hstop
  have hr_exp : ∀ c, (expPrint ex ++ rest).head? = some c →
      isDigitC c = false ∧ ¬c = '.' := by
    rcases ex with _ | p
    · intro c hc
      simp only [expPrint, List.nil_append] at hc
      exact ⟨(hrest c hc).1, (hrest c hc).2.1⟩
    · intro c hc
      simp only [expPrint, List.cons_append, List.head?_cons, Option.some.injEq] at hc
      rw [← hc]
      constructor <;> decide
  have hr_frac : ∀ c, (fracPrint fr ++ (expPrint ex ++ rest)).head? = some c →
      isDigitC c = false := by
    rcases fr with _ | fs
    · intro c hc
      simp only [fracPrint, List.nil_append] at hc
      exact (hr_exp c hc).1
    · intro c hc
      simp only [fracPrint, List.cons_append, List.head?_cons, Option.some.injEq] at hc
      rw [← hc]
      decide
  have hpe : parseExp (expPrint ex ++ rest) = some (ex, rest) :=
    parseExp_print hex (fun c hc => ⟨(hrest c hc).1, (hrest c hc).2.2.1,
      (hrest c hc).2.2.2.1, (hrest c hc).2.2.2.2.1, (hrest c hc).2.2.2.2.2⟩)
  have hpf : parseFrac (fracPrint fr ++ (expPrint ex ++ rest)) =
      some (fr, expPrint ex ++ rest) := by
    rcases fr with _ | fs
    · exact parseFrac_no_dot (fun c hc => (hr_exp c hc).2)
    · show parseFrac ('.' :: (printDigits fs ++ (expPrint ex ++ rest))) = _
      exact parseFrac_print (hfr fs rfl) (fun c hc => (hr_exp c hc).1)
  have hrd : readDigits (printDigits ds ++ (fracPrint fr ++ (expPrint ex ++ rest))) =
      (ds, fracPrint fr ++ (expPrint ex ++ rest)) := readDigits_print hlt hr_frac
  rcases ds with _ | ⟨d, ds'⟩
  · exact absurd rfl hne
  cases nneg
  · have hassoc : printJNum ⟨false, d :: ds', fr, ex⟩ ++ rest =
        printDigits (d :: ds') ++ (fracPrint fr ++ (expPrint ex ++ rest)) := by
      simp [printJNum, List.append_assoc]
    rw [hassoc]
    unfold parseJNum
    simp only [parseSign_digits (List.cons_ne_nil _ _) hlt, hrd, hlz, if_true, hpf, hpe]
  · have hassoc : printJNum ⟨true, d :: ds', fr, ex⟩ ++ rest =
        '-' :: (printDigits (d :: ds') ++ (fracPrint fr ++ (expPrint ex ++ rest))) := by
      simp [printJNum, List.append_assoc]
    rw [hassoc]
    unfold parseJNum
    simp only [parseSign_dash, hrd, hlz, if_true, hpf, hpe]

lemma readStrChars_print : ∀ {s : List Char}, strOk s →
    ∀ rest, readStrChars (s ++ '"' :: rest) = some (s, rest)
  | [], _, rest => by simp [readStrChars]
  | c :: s', hs, rest => by
    have hc := hs c (List.mem_cons_self _ _)
    have ih := readStrChars_print (fun x hx => hs x (List.mem_cons_of_mem _ hx)) rest
    simp only [List.cons_append, readStrChars, if_neg hc.1, if_neg hc.2, List.append_eq, ih]

lemma printJVal_cons {v : JVal} (hv : v.valid) :
    ∃ c t, printJVal v = c :: t ∧ isWsChar c = false ∧ ¬c = ']' := by
  cases v with
  | num n =>
    obtain ⟨nneg, ds, fr, ex⟩ := n
    obtain ⟨⟨hne, hlt⟩, _, _, _⟩ := hv
    rcases ds with _ | ⟨d, ds'⟩
    · exact absurd rfl hne
    have h0 : d < 10 := hlt _ (List.mem_cons_self _ _)
    cases nneg
    · exact ⟨digitChar d, printDigits ds' ++ fracPrint fr ++ expPrint ex, rfl,
        (digitChar_facts h0).1, (digitChar_facts h0).2.2.2.2.2.2.2.1⟩
    · exact ⟨'-', printDigits (d :: ds') ++ fracPrint fr ++ expPrint ex, rfl,
        by decide, by decide⟩
  | str s => exact ⟨'"', s ++ ['"'], rfl, by decide, by decide⟩

lemma parseJVal_print {v : JVal} {rest : List Char} (hv : v.valid) (hstop : numStop rest) :
    parseJVal (printJVal v ++ rest) = some (v, rest) := by
  cases v with
  | str s =>
    show parseJVal ('"' :: ((s ++ ['"']) ++ rest)) = some (.str s, rest)
    rw [List.append_assoc, List.singleton_append]
    unfold parseJVal
    rw [skipWs_cons_of_not_ws (by decide)]
    simp only [if_pos rfl, readStrChars_print hv]
    simp
  | num n =>
    obtain ⟨c, t, hc, hws2, _⟩ := printJVal_cons (v := .num n) hv
    simp only [printJVal] at hc
    have hq : ¬c = '"' := by
      have h2 := parseJNum_print hv hstop
      intro hcq
      rw [hc, hcq] at h2
      rw [show ('"' :: t) ++ rest = '"' :: (t ++ rest) from rfl] at h2
      have h3 : parseSign ('"' :: (t ++ rest)) = (false, '"' :: (t ++ rest)) := by
        rw [parseSign, if_neg (by decide)]
      have h4 : readDigits ('"' :: (t ++ rest)) = ([], '"' :: (t ++ rest)) :=
        readDigits_not_digit (fun x hx => by
          rw [List.head?_cons, Option.some.injEq] at hx
          rw [← hx]
          decide)
      unfold parseJNum at h2
      rw [h3] at h2
      simp only [h4] at h2
      cases h2
    show parseJVal (printJNum n ++ rest) = some (.num n, rest)
    unfold parseJVal
    rw [hc, List.cons_append, skipWs_cons_of_not_ws hws2]
    simp only [if_neg hq, ← List.cons_append, ← hc, parseJNum_print hv hstop]

lemma printItems_cons_shape (v : JVal) (vs : List JVal) :
    ∃ x, printItems (v :: vs) = printJVal v ++ x := by
  cases vs with
  | nil => exact ⟨[']'], rfl⟩
  | cons w vs' => exact ⟨',' :: ' ' :: printItems (w :: vs'), rfl⟩

lemma parseItems_print : ∀ (vs : List JVal) (fuel : Nat) (rest : List Char), vs ≠ [] →
    vs.length ≤ fuel → (∀ v ∈ vs, v.valid) →
    parseItems fuel (printItems vs ++ rest) = some (vs, rest) := by
  intro vs
  induction vs with
  | nil => intro _ _ h; exact absurd rfl h
  | cons v vs' ih =>
    intro fuel rest _ hfuel hval
    rcases fuel with _ | fuel'
    · simp at hfuel
    have hv : v.valid := hval v (List.mem_cons_self _ _)
    cases vs' with
    | nil =>
      show parseItems (fuel' + 1) ((printJVal v ++ [']']) ++ rest) = some ([v], rest)
      rw [List.append_assoc, List.singleton_append]
      simp only [parseItems, @parseJVal_print v (']' :: rest) hv (Or.inr rfl),
        skipWs_cons_of_not_ws (by decide : isWsChar ']' = false),
        if_neg (by decide : ¬(']' : Char) = ',')]
      simp
    | cons w vs'' =>
      show parseItems (fuel' + 1)
          ((printJVal v ++ ',' :: ' ' :: printItems (w :: vs'')) ++ rest) =
        some (v :: w :: vs'', rest)
      rw [List.append_assoc, List.cons_append, List.cons_append]
      have hpv := @parseJVal_print v (',' :: (' ' :: (printItems (w :: vs'') ++ rest))) hv (Or.inl rfl)
      have hskip : skipWs (' ' :: (printItems (w :: vs'') ++ rest)) =
          printItems (w :: vs'') ++ rest := by
        rw [skipWs_cons_of_ws (by decide)]
        obtain ⟨x, hx⟩ := printItems_cons_shape w vs''
        obtain ⟨c, t, hct, hcw, _⟩ := printJVal_cons (hval w (by simp))
        rw [hx, hct]
        simp only [List.cons_append]
        rw [skipWs_cons_of_not_ws hcw]
      have hih := ih fuel' rest (List.cons_ne_nil _ _)
        (by simp only [List.length_cons] at hfuel ⊢; omega)
        (fun y hy => hval y (List.mem_cons_of_mem _ hy))
      simp only [parseItems, hpv,
        skipWs_cons_of_not_ws (by decide : isWsChar ',' = false)]
      rw [hskip, hih]
      simp

lemma printJVal_length_pos {v : JVal} (hv : v.valid) : 1 ≤ (printJVal v).length := by
  obtain ⟨c, t, hct, _, _⟩ := printJVal_cons hv
  rw [hct]
  simp

lemma printItems_length_ge : ∀ vs : List JVal, (∀ v ∈ vs, v.valid) →
    vs.length ≤ (printItems vs).length := by
  intro vs
  induction vs with
  | nil => simp [printItems]
  | cons v vs' ih =>
    intro hval
    have hv1 := printJVal_length_pos (hval v (List.mem_cons_self _ _))
    cases vs' with
    | nil => simp [printItems]
    | cons w vs'' =>
      have := ih (fun x hx => hval x (List.mem_cons_of_mem _ hx))
      show (v :: w :: vs'').length ≤ (printJVal v ++ ',' :: ' ' :: printItems (w :: vs'')).length
      simp only [List.length_append, List.length_cons] at *
      omega

lemma printJArr_data (vs : List JVal) : (printJArr vs).data = '[' :: printItems vs := rfl

/-- Round-trip: re-serializing any successfully parsed array and parsing it
again recovers the identical parse (and hence identical numeric values). -/
lemma jsonLoadsArr_print {vs : List JVal} (hval : ∀ v ∈ vs, v.valid) :
    jsonLoadsArr (printJArr vs) = some vs := by
  rcases vs with _ | ⟨v, vs'⟩
  · decide
  · obtain ⟨x, hx⟩ := printItems_cons_shape v vs'
    obtain ⟨c, t, hct, hcw, hnbr⟩ := printJVal_cons (hval v (List.mem_cons_self _ _))
    have hshape : printItems (v :: vs') = c :: (t ++ x) := by
      rw [hx, hct, List.cons_append]
    have hfuel : (v :: vs').length ≤ (t ++ x).length + 1 + 1 := by
      have h1 := printItems_length_ge (v :: vs') hval
      rw [hshape] at h1
      simp only [List.length_cons] at h1 ⊢
      omega
    have hpi : parseItems ((t ++ x).length + 1 + 1) (printItems (v :: vs') ++ []) =
        some (v :: vs', []) :=
      parseItems_print (v :: vs') _ [] (List.cons_ne_nil _ _) hfuel hval
    rw [List.append_nil, hshape] at hpi
    unfold jsonLoadsArr
    simp only [printJArr_data, skipWs_cons_of_not_ws (by decide : isWsChar '[' = false),
      hshape, skipWs_cons_of_not_ws hcw, if_neg hnbr, List.length_cons, hpi]
    simp [skipWs]

/-! ## Lemmas about the migration pipeline -/

lemma eff_app_empty (a : Effects) : a ++ emptyEff = a := by
  show Effects.app a emptyEff = a
  simp [Effects.app, emptyEff]

lemma eff_empty_app (a : Effects) : emptyEff ++ a = a := by
  show Effects.app emptyEff a = a
  simp [Effects.app, emptyEff]

lemma eff_app_assoc (a b c : Effects) : a ++ b ++ c = a ++ (b ++ c) := by
  show Effects.app (Effects.app a b) c = Effects.app a (Effects.app b c)
  simp [Effects.app]

lemma migrate_chunk_ok {cfg : MigConfig} {env : Env} {r : SourceRecord}
    {d : FirestoreDoc} {e : Effects} (h : migrateChunkCore cfg env r = .ok (d, e)) :
    migrate_chunk cfg env r = ⟨true, e, []⟩ := by
  unfold migrate_chunk
  rw [h]

lemma migrate_chunk_err {cfg : MigConfig} {env : Env} {r : SourceRecord}
    {m : String} {e : Effects} (h : migrateChunkCore cfg env r = .error (m, e)) :
    migrate_chunk cfg env r = ⟨false, e, [(r.id, m)]⟩ := by
  unfold migrate_chunk
  rw [h]

/-- Whether `migrate_chunk` raises depends only on the embedding parse and
the injected store faults; per-record failure shape of the wrapper. -/
lemma migrate_chunk_log_cases (cfg : MigConfig) (env : Env) (r : SourceRecord) :
    ((migrate_chunk cfg env r).success = true ∧ (migrate_chunk cfg env r).log = []) ∨
      ((migrate_chunk cfg env r).success = false ∧
        ∃ m, (migrate_chunk cfg env r).log = [(r.id, m)]) := by
  unfold migrate_chunk
  cases migrateChunkCore cfg env r with
  | ok p => exact Or.inl ⟨rfl, rfl⟩
  | error p => exact Or.inr ⟨rfl, p.1, rfl⟩

lemma stepStorage_dry {cfg : MigConfig} {env : Env} {r : SourceRecord}
    (h : cfg.dry_run = true) :
    stepStorage cfg env r =
      .ok ((if !cfg.skip_storage && truthyOptStr r.content then some (blobPathOf r)
        else none), emptyEff) := by
  by_cases hc : (!cfg.skip_storage && truthyOptStr r.content) = true
  · simp [stepStorage, hc, h]
  · simp [stepStorage, hc]

/-- Test of whether the record's embedding transforms without raising. -/
def embedOk (r : SourceRecord) : Bool :=
  match stepEmbedding r with
  | .ok _ => true
  | .error _ => false

lemma migrate_chunk_dry {cfg : MigConfig} {env : Env} {r : SourceRecord}
    (hd : cfg.dry_run = true) :
    (migrate_chunk cfg env r).eff = emptyEff ∧
      (migrate_chunk cfg env r).success = embedOk r := by
  cases hse : stepEmbedding r with
  | error m =>
    have hcore : migrateChunkCore cfg env r = .error (m, emptyEff) := by
      unfold migrateChunkCore
      rw [stepStorage_dry hd, hse]
    rw [migrate_chunk_err hcore]
    simp [embedOk, hse]
  | ok v =>
    have hcore : migrateChunkCore cfg env r =
        .ok (buildDoc r (if !cfg.skip_storage && truthyOptStr r.content
          then some (blobPathOf r) else none) v, emptyEff) := by
      unfold migrateChunkCore
      rw [stepStorage_dry hd, hse]
      simp [hd]
    rw [migrate_chunk_ok hcore]
    simp [embedOk, hse]

lemma processBatch_succ (cfg : MigConfig) (env : Env) : ∀ l : List SourceRecord,
    (processBatch cfg env l).1 = l.countP (fun r => (migrate_chunk cfg env r).success) := by
  intro l
  induction l with
  | nil => rfl
  | cons a t ih =>
    simp only [processBatch, ih, List.countP_cons]
    by_cases h : (migrate_chunk cfg env a).success = true <;> simp [h] <;> omega

lemma processBatch_append (cfg : MigConfig) (env : Env) : ∀ l₁ l₂ : List SourceRecord,
    processBatch cfg env (l₁ ++ l₂) =
      ((processBatch cfg env l₁).1 + (processBatch cfg env l₂).1,
       (processBatch cfg env l₁).2.1 ++ (processBatch cfg env l₂).2.1,
       (processBatch cfg env l₁).2.2 ++ (processBatch cfg env l₂).2.2) := by
  intro l₁ l₂
  induction l₁ with
  | nil => simp [processBatch, eff_empty_app]
  | cons a t ih => simp [processBatch, ih, eff_app_assoc, Nat.add_assoc]

lemma processBatch_log_ids (cfg : MigConfig) (env : Env) : ∀ l : List SourceRecord,
    ((processBatch cfg env l).2.2).map Prod.fst =
      (l.filter (fun r => !(migrate_chunk cfg env r).success)).map (fun r => r.id) := by
  intro l
  induction l with
  | nil => rfl
  | cons a t ih =>
    rcases migrate_chunk_log_cases cfg env a with ⟨hs, hl⟩ | ⟨hs, m, hl⟩ <;>
      simp [processBatch, hl, ih, List.filter_cons, hs]

lemma processBatch_dry_eff (cfg : MigConfig) (env : Env) (hd : cfg.dry_run = true) :
    ∀ l : List SourceRecord, (processBatch cfg env l).2.1 = emptyEff := by
  intro l
  induction l with
  | nil => rfl
  | cons a t ih =>
    show (migrate_chunk cfg env a).eff ++ (processBatch cfg env t).2.1 = emptyEff
    rw [(migrate_chunk_dry hd).1, ih, eff_empty_app]

/-! Order facts about the SELECT's ordered, filtered result. -/

def idLt (a b : SourceRecord) : Prop := a.id < b.id

lemma sortedRemaining_sorted (store : List SourceRecord) (last : Nat) :
    (sortedRemaining store last).Pairwise recLeP :=
  List.sorted_insertionSort recLeP _

lemma sortedRemaining_perm (store : List SourceRecord) (last : Nat) :
    (sortedRemaining store last).Perm (store.filter (idGt last)) :=
  List.perm_insertionSort recLeP _

lemma sortedRemaining_mem {store : List SourceRecord} {last : Nat} {x : SourceRecord} :
    x ∈ sortedRemaining store last ↔ x ∈ store ∧ last < x.id := by
  unfold sortedRemaining
  rw [List.mem_insertionSort, List.mem_filter]
  simp [idGt]

lemma sortedRemaining_length (store : List SourceRecord) (last : Nat) :
    (sortedRemaining store last).length = (store.filter (idGt last)).length :=
  (sortedRemaining_perm store last).length_eq

lemma nodup_ids_sortedRemaining {store : List SourceRecord} {last : Nat}
    (h : (store.map (fun r => r.id)).Nodup) :
    ((sortedRemaining store last).map (fun r => r.id)).Nodup := by
  have h1 : ((store.filter (idGt last)).map (fun r => r.id)).Nodup :=
    ((List.filter_sublist store).map _).nodup h
  exact (((sortedRemaining_perm store last).map _).nodup_iff).mpr h1

lemma pairwise_lt_of_le_nodup : ∀ {l : List SourceRecord}, l.Pairwise recLeP →
    (l.map (fun r => r.id)).Nodup → l.Pairwise idLt := by
  intro l
  induction l with
  | nil => intro _ _; exact List.Pairwise.nil
  | cons a t ih =>
    intro hp hn
    rw [List.pairwise_cons] at hp ⊢
    rw [List.map_cons, List.nodup_cons] at hn
    refine ⟨fun b hb => ?_, ih hp.2 hn.2⟩
    have hle : a.id ≤ b.id := hp.1 b hb
    have hne : a.id ≠ b.id := fun he => hn.1 (he ▸ List.mem_map_of_mem _ hb)
    exact Nat.lt_of_le_of_ne hle hne

lemma pairwise_le_getLast : ∀ {l : List SourceRecord}, l.Pairwise recLeP →
    ∀ (h : l ≠ []) (x : SourceRecord), x ∈ l → x.id ≤ (l.getLast h).id := by
  intro l
  induction l with
  | nil => intro _ h; exact absurd rfl h
  | cons a t ih =>
    intro hp h x hx
    cases t with
    | nil =>
      rcases List.mem_cons.mp hx with rfl | hx
      · exact Nat.le_refl _
      · cases hx
    | cons b t' =>
      rw [List.pairwise_cons] at hp
      rw [List.getLast_cons (List.cons_ne_nil b t')]
      rcases List.mem_cons.mp hx with rfl | hx
      · exact hp.1 _ (List.getLast_mem _)
      · exact ih hp.2 (List.cons_ne_nil _ _) x hx

lemma length_filter_mono {p q : SourceRecord → Bool} : ∀ {l : List SourceRecord},
    (∀ a ∈ l, p a = true → q a = true) → (l.filter p).length ≤ (l.filter q).length := by
  intro l
  induction l with
  | nil => intro _; exact Nat.le_refl _
  | cons a t ih =>
    intro h
    have ht := ih (fun x hx => h x (List.mem_cons_of_mem _ hx))
    by_cases hp : p a = true
    · rw [List.filter_cons_of_pos hp, List.filter_cons_of_pos (h a (List.mem_cons_self _ _) hp)]
      simpa using ht
    · rw [List.filter_cons_of_neg (by simpa using hp)]
      by_cases hq : q a = true
      · rw [List.filter_cons_of_pos hq]
        exact Nat.le_succ_of_le ht
      · rw [List.filter_cons_of_neg (by simpa using hq)]
        exact ht

lemma length_filter_lt {p q : SourceRecord → Bool} {l : List SourceRecord}
    {x : SourceRecord} (himp : ∀ a ∈ l, p a = true → q a = true) (hx : x ∈ l)
    (hq : q x = true) (hp : p x = false) :
    (l.filter p).length < (l.filter q).length := by
  induction l with
  | nil => cases hx
  | cons a t ih =>
    rcases List.mem_cons.mp hx with rfl | hxt
    · rw [List.filter_cons_of_neg (by simp [hp]), List.filter_cons_of_pos hq]
      exact Nat.lt_succ_of_le
        (length_filter_mono (fun y hy => himp y (List.mem_cons_of_mem _ hy)))
    · have ht := ih (fun y hy => himp y (List.mem_cons_of_mem _ hy)) hxt
      by_cases hpa : p a = true
      · rw [List.filter_cons_of_pos hpa,
          List.filter_cons_of_pos (himp a (List.mem_cons_self _ _) hpa)]
        simpa using ht
      · rw [List.filter_cons_of_neg (by simpa using hpa)]
        by_cases hqa : q a = true
        · rw [List.filter_cons_of_pos hqa]
          exact Nat.lt_succ_of_lt ht
        · rw [List.filter_cons_of_neg (by simpa using hqa)]
          exact ht

lemma fetch_batch_mem {store : List SourceRecord} {last bs : Nat} {x : SourceRecord}
    (hx : x ∈ fetch_batch store last bs) : x ∈ store ∧ last < x.id := by
  have h1 : x ∈ sortedRemaining store last := List.take_subset _ _ hx
  exact sortedRemaining_mem.mp h1

lemma fetch_batch_pairwise (store : List SourceRecord) (last bs : Nat) :
    (fetch_batch store last bs).Pairwise recLeP :=
  (sortedRemaining_sorted store last).sublist (List.take_sublist _ _)

/-- After a non-empty batch, strictly fewer records remain above the new
watermark (the id of the batch's final record). -/
lemma remaining_decrease {store : List SourceRecord} {last bs : Nat} {c : SourceRecord}
    (hql : (fetch_batch store last bs).getLast? = some c) :
    (store.filter (idGt c.id)).length < (store.filter (idGt last)).length := by
  have hcmem : c ∈ fetch_batch store last bs := List.mem_of_mem_getLast? hql
  have hcs := fetch_batch_mem hcmem
  have himp : ∀ a ∈ store, idGt c.id a = true → idGt last a = true := by
    intro a _ ha
    simp only [idGt, decide_eq_true_eq] at ha ⊢
    exact Nat.lt_trans hcs.2 ha
  exact length_filter_lt himp hcs.1 (by simp [idGt, hcs.2]) (by simp [idGt])

/-- Two strictly id-sorted lists with the same members are equal. -/
lemma strictSorted_eq : ∀ {l₁ l₂ : List SourceRecord}, l₁.Pairwise idLt →
    l₂.Pairwise idLt → (∀ x, x ∈ l₁ ↔ x ∈ l₂) → l₁ = l₂ := by
  intro l₁
  induction l₁ with
  | nil =>
    intro l₂ _ _ hmem
    cases l₂ with
    | nil => rfl
    | cons b t₂ => exact absurd ((hmem b).mpr (List.mem_cons_self _ _)) (by simp)
  | cons a t₁ ih =>
    intro l₂ hp₁ hp₂ hmem
    cases l₂ with
    | nil => exact absurd ((hmem a).mp (List.mem_cons_self _ _)) (by simp)
    | cons b t₂ =>
      rw [List.pairwise_cons] at hp₁ hp₂
      have hab : a = b := by
        rcases List.mem_cons.mp ((hmem a).mp (List.mem_cons_self _ _)) with h | h
        · exact h
        · rcases List.mem_cons.mp ((hmem b).mpr (List.mem_cons_self _ _)) with h' | h'
          · exact h'.symm
          · exact absurd (Nat.lt_trans (hp₁.1 b h') (hp₂.1 a h))
              (Nat.lt_irrefl a.id)
      subst hab
      have htmem : ∀ x, x ∈ t₁ ↔ x ∈ t₂ := by
        intro x
        constructor
        · intro hx
          have hlt := hp₁.1 x hx
          rcases List.mem_cons.mp ((hmem x).mp (List.mem_cons_of_mem _ hx)) with h | h
          · exact absurd (h ▸ hlt) (Nat.lt_irrefl _)
          · exact h
        · intro hx
          have hlt := hp₂.1 x hx
          rcases List.mem_cons.mp ((hmem x).mpr (List.mem_cons_of_mem _ hx)) with h | h
          · exact absurd (h ▸ hlt) (Nat.lt_irrefl _)
          · exact h
      rw [ih hp₁.2 hp₂.2 htmem]

/-- When a batch has been processed, the rows above the new watermark (the
final batch record's id) are exactly the old remainder with the batch
dropped. -/
lemma remaining_after_batch {store : List SourceRecord} {last bs : Nat} {c : SourceRecord}
    (hnd : (store.map (fun r => r.id)).Nodup)
    (hql : (fetch_batch store last bs).getLast? = some c) :
    sortedRemaining store c.id = (sortedRemaining store last).drop bs := by
  have hRs : (sortedRemaining store last).Pairwise idLt :=
    pairwise_lt_of_le_nodup (sortedRemaining_sorted store last)
      (nodup_ids_sortedRemaining hnd)
  have hsplit := List.take_append_drop bs (sortedRemaining store last)
  have hRs' : ((sortedRemaining store last).take bs ++
      (sortedRemaining store last).drop bs).Pairwise idLt := by
    rw [hsplit]
    exact hRs
  have hcross := (List.pairwise_append.mp hRs').2.2
  have hcmem : c ∈ fetch_batch store last bs := List.mem_of_mem_getLast? hql
  have hcs := fetch_batch_mem hcmem
  have hTne : fetch_batch store last bs ≠ [] := by
    intro he
    rw [he] at hql
    cases hql
  have hceq : c = (fetch_batch store last bs).getLast hTne := by
    rw [List.getLast?_eq_getLast _ hTne, Option.some.injEq] at hql
    exact hql.symm
  have hT_le : ∀ x ∈ (sortedRemaining store last).take bs, x.id ≤ c.id := by
    intro x hx
    have h1 := pairwise_le_getLast (fetch_batch_pairwise store last bs) hTne x hx
    rw [← hceq] at h1
    exact h1
  refine strictSorted_eq
    (pairwise_lt_of_le_nodup (sortedRemaining_sorted store c.id)
      (nodup_ids_sortedRemaining hnd))
    (hRs.sublist (List.drop_sublist _ _)) ?_
  intro x
  rw [sortedRemaining_mem]
  constructor
  · rintro ⟨hxs, hxgt⟩
    have hxR : x ∈ sortedRemaining store last :=
      sortedRemaining_mem.mpr ⟨hxs, Nat.lt_trans hcs.2 hxgt⟩
    rw [← hsplit] at hxR
    rcases List.mem_append.mp hxR with h | h
    · exact absurd hxgt (Nat.not_lt.mpr (hT_le x h))
    · exact h
  · intro hx
    have hxR : x ∈ sortedRemaining store last := by
      rw [← hsplit]
      exact List.mem_append.mpr (Or.inr hx)
    exact ⟨(sortedRemaining_mem.mp hxR).1, hcross c hcmem x hx⟩

/-- Invariant of the whole batch loop: with enough fuel it reaches a
`break` (termination), having attempted every remaining record in id
order, counted exactly the successes into `migrated_count`, moved the
watermark to the last remaining id, persisted the checkpoint whenever at
least one batch ran, accumulated exactly the per-record writes and error
lines, and used at most `remaining + 1` iterations. -/
theorem runLoopF_spec (cfg : MigConfig) (env : Env) (store : List SourceRecord)
    (total : Nat) (hnd : (store.map (fun r => r.id)).Nodup)
    (hbs : 1 ≤ cfg.batch_size) :
    ∀ fuel s, (sortedRemaining store s.last_id).length < fuel →
    ∃ s', runLoopF cfg env store total fuel s = some s' ∧
      s'.migrated = s.migrated + (sortedRemaining store s.last_id).countP
        (fun r => (migrate_chunk cfg env r).success) ∧
      s'.last_id = (((sortedRemaining store s.last_id).getLast?).map
        (fun c => c.id)).getD s.last_id ∧
      s'.file = (if sortedRemaining store s.last_id = [] then s.file
        else some ⟨s'.last_id, s'.migrated, total⟩) ∧
      s'.effects = s.effects ++
        (processBatch cfg env (sortedRemaining store s.last_id)).2.1 ∧
      s'.logs = s.logs ++
        (processBatch cfg env (sortedRemaining store s.last_id)).2.2 ∧
      s'.iters ≤ s.iters + (sortedRemaining store s.last_id).length + 1 := by
  intro fuel
  induction fuel with
  | zero => intro s hlt; omega
  | succ fuel ih =>
    intro s hlt
    by_cases hR : sortedRemaining store s.last_id = []
    · have hb : fetch_batch store s.last_id cfg.batch_size = [] := by
        unfold fetch_batch
        rw [hR, List.take_nil]
      have hstep : runLoopF cfg env store total (fuel + 1) s =
          some { s with iters := s.iters + 1 } := by
        simp only [runLoopF]
        rw [hb]
        rfl
      refine ⟨{ s with iters := s.iters + 1 }, hstep, ?_, ?_, ?_, ?_, ?_, ?_⟩ <;>
        simp [hR, processBatch, eff_app_empty]
    · have hbne : fetch_batch store s.last_id cfg.batch_size ≠ [] := by
        unfold fetch_batch
        rcases hRR : sortedRemaining store s.last_id with _ | ⟨x, xs⟩
        · exact absurd hRR hR
        · rcases hbb : cfg.batch_size with _ | b
          · omega
          · simp
      obtain ⟨c, hc⟩ : ∃ c, (fetch_batch store s.last_id cfg.batch_size).getLast? = some c :=
        ⟨_, List.getLast?_eq_getLast _ hbne⟩
      have hbe : (fetch_batch store s.last_id cfg.batch_size).isEmpty = false := by
        rcases hbb : fetch_batch store s.last_id cfg.batch_size with _ | ⟨x, xs⟩
        · exact absurd hbb hbne
        · rfl
      have hs₁ : stepBatch cfg env total { s with iters := s.iters + 1 }
          (fetch_batch store s.last_id cfg.batch_size) =
          { last_id := c.id,
            migrated := s.migrated +
              (processBatch cfg env (fetch_batch store s.last_id cfg.batch_size)).1,
            file := some ⟨c.id, s.migrated +
              (processBatch cfg env (fetch_batch store s.last_id cfg.batch_size)).1, total⟩,
            effects := s.effects ++
              (processBatch cfg env (fetch_batch store s.last_id cfg.batch_size)).2.1,
            logs := s.logs ++
              (processBatch cfg env (fetch_batch store s.last_id cfg.batch_size)).2.2,
            iters := s.iters + 1 } := by
        unfold stepBatch
        rw [hc]
      have hRne : (sortedRemaining store s.last_id).getLast? = some
          ((sortedRemaining store s.last_id).getLast hR) :=
        List.getLast?_eq_getLast _ hR
      have hbatch_take : fetch_batch store s.last_id cfg.batch_size =
          (sortedRemaining store s.last_id).take cfg.batch_size := rfl
      by_cases hshort : (fetch_batch store s.last_id cfg.batch_size).length < cfg.batch_size
      · -- short batch: the whole remainder was fetched, and the loop stops
        have hall : fetch_batch store s.last_id cfg.batch_size =
            sortedRemaining store s.last_id := by
          rw [hbatch_take]
          apply List.take_of_length_le
          by_contra hcon
          push_neg at hcon
          rw [hbatch_take, List.length_take,
            Nat.min_eq_left (Nat.le_of_lt hcon)] at hshort
          exact absurd hshort (Nat.lt_irrefl _)
        have hstep : runLoopF cfg env store total (fuel + 1) s =
            some (stepBatch cfg env total { s with iters := s.iters + 1 }
              (fetch_batch store s.last_id cfg.batch_size)) := by
          simp only [runLoopF]
          rw [hbe]
          simp only [Bool.false_eq_true, if_false, if_pos hshort]
        rw [hs₁] at hstep
        refine ⟨_, hstep, ?_, ?_, ?_, ?_, ?_, ?_⟩ <;> dsimp only
        · rw [hall, processBatch_succ]
        · rw [hall] at hc
          rw [hc]
          rfl
        · rw [if_neg hR]
        · rw [hall]
        · rw [hall]
        · omega
      · -- full batch: recurse on the dropped remainder
        have hfull : (fetch_batch store s.last_id cfg.batch_size).length =
            cfg.batch_size := by
          rw [hbatch_take, List.length_take] at hshort ⊢
          omega
        have hblen : cfg.batch_size ≤ (sortedRemaining store s.last_id).length := by
          rw [hbatch_take, List.length_take] at hfull
          rcases Nat.le_total cfg.batch_size (sortedRemaining store s.last_id).length with h | h
          · exact h
          · rw [Nat.min_eq_right h] at hfull
            omega
        have hdrop := remaining_after_batch hnd hc
        have hlen' : (sortedRemaining store c.id).length =
            (sortedRemaining store s.last_id).length - cfg.batch_size := by
          rw [hdrop, List.length_drop]
        obtain ⟨s'', hrun'', hmig'', hlast'', hfile'', heff'', hlogs'', hiters''⟩ :=
          ih { last_id := c.id,
               migrated := s.migrated +
                 (processBatch cfg env (fetch_batch store s.last_id cfg.batch_size)).1,
               file := some ⟨c.id, s.migrated +
                 (processBatch cfg env (fetch_batch store s.last_id cfg.batch_size)).1, total⟩,
               effects := s.effects ++
                 (processBatch cfg env (fetch_batch store s.last_id cfg.batch_size)).2.1,
               logs := s.logs ++
                 (processBatch cfg env (fetch_batch store s.last_id cfg.batch_size)).2.2,
               iters := s.iters + 1 }
            (by dsimp only; rw [hlen']; omega)
        dsimp only at hrun'' hmig'' hlast'' hfile'' heff'' hlogs'' hiters''
        have hstep : runLoopF cfg env store total (fuel + 1) s =
            runLoopF cfg env store total fuel
              (stepBatch cfg env total { s with iters := s.iters + 1 }
                (fetch_batch store s.last_id cfg.batch_size)) := by
          simp only [runLoopF]
          rw [hbe]
          simp only [Bool.false_eq_true, if_false, if_neg hshort]
        rw [hs₁] at hstep
        rw [hstep]
        have hsplitR := List.take_append_drop cfg.batch_size (sortedRemaining store s.last_id)
        have hpbR := processBatch_append cfg env
          ((sortedRemaining store s.last_id).take cfg.batch_size)
          ((sortedRemaining store s.last_id).drop cfg.batch_size)
        rw [hsplitR] at hpbR
        refine ⟨s'', hrun'', ?_, ?_, ?_, ?_, ?_, ?_⟩
        · rw [hmig'', hdrop, processBatch_succ, hbatch_take]
          conv_rhs => rw [← hsplitR]
          rw [List.countP_append]
          omega
        · rw [hlast'', hdrop]
          by_cases hD : (sortedRemaining store s.last_id).drop cfg.batch_size = []
          · have htakeR : (sortedRemaining store s.last_id).take cfg.batch_size =
                sortedRemaining store s.last_id := by
              have hld := List.length_drop cfg.batch_size (sortedRemaining store s.last_id)
              rw [hD] at hld
              simp only [List.length_nil] at hld
              exact List.take_of_length_le (by omega)
            rw [hbatch_take, htakeR] at hc
            rw [hD, hc]
            rfl
          · have hgl : (sortedRemaining store s.last_id).getLast? =
                ((sortedRemaining store s.last_id).drop cfg.batch_size).getLast? := by
              conv_lhs => rw [← hsplitR]
              exact List.getLast?_append_of_ne_nil _ hD
            rw [← hgl, hRne]
            rfl
        · rw [hfile'', hdrop]
          by_cases hD : (sortedRemaining store s.last_id).drop cfg.batch_size = []
          · rw [if_pos hD, if_neg hR]
            have hml : s''.last_id = c.id := by
              rw [hlast'', hdrop, hD]
              rfl
            have hmm : s''.migrated = s.migrated +
                (processBatch cfg env (fetch_batch store s.last_id cfg.batch_size)).1 := by
              rw [hmig'', hdrop, hD]
              rfl
            rw [hml, hmm]
          · rw [if_neg hD, if_neg hR]
        · rw [heff'', hdrop, eff_app_assoc, hpbR, hbatch_take]
        · rw [hlogs'', hdrop, List.append_assoc, hpbR, hbatch_take]
        · rw [hlen'] at hiters''
          omega

/-- Behaviour of one full `run` invocation, derived from the loop
invariant: final counters, write log, error log, summary, progress-file
state, and the iteration bound. -/
theorem run_spec (cfg : MigConfig) (env : Env) (store : List SourceRecord)
    (fileInit : Option Progress) (hnd : (store.map (fun r => r.id)).Nodup)
    (hbs : 1 ≤ cfg.batch_size) :
    (run cfg env store fileInit).total =
      (sortedRemaining store (load_progress fileInit).last_id).length ∧
    (run cfg env store fileInit).st.migrated =
      (load_progress fileInit).migrated_count +
        (sortedRemaining store (load_progress fileInit).last_id).countP
          (fun r => (migrate_chunk cfg env r).success) ∧
    (run cfg env store fileInit).st.last_id =
      (((sortedRemaining store (load_progress fileInit).last_id).getLast?).map
        (fun c => c.id)).getD (load_progress fileInit).last_id ∧
    (run cfg env store fileInit).st.effects =
      (processBatch cfg env (sortedRemaining store (load_progress fileInit).last_id)).2.1 ∧
    (run cfg env store fileInit).st.logs =
      (processBatch cfg env (sortedRemaining store (load_progress fileInit).last_id)).2.2 ∧
    (run cfg env store fileInit).summaryCount =
      (if sortedRemaining store (load_progress fileInit).last_id = [] then none
       else some ((run cfg env store fileInit).st.migrated)) ∧
    (run cfg env store fileInit).st.file =
      (if sortedRemaining store (load_progress fileInit).last_id = [] then fileInit
       else if cfg.dry_run then
         some ⟨(run cfg env store fileInit).st.last_id,
           (run cfg env store fileInit).st.migrated, (run cfg env store fileInit).total⟩
       else none) ∧
    (run cfg env store fileInit).st.iters ≤
      (sortedRemaining store (load_progress fileInit).last_id).length + 1 := by
  have hlen := sortedRemaining_length store (load_progress fileInit).last_id
  by_cases h0 : get_total_count store (load_progress fileInit).last_id = 0
  · have hRnil : sortedRemaining store (load_progress fileInit).last_id = [] :=
      List.eq_nil_of_length_eq_zero (by rw [hlen]; exact h0)
    have hrun : run cfg env store fileInit =
        ⟨⟨(load_progress fileInit).last_id, (load_progress fileInit).migrated_count,
          fileInit, emptyEff, [], 0⟩, none,
          get_total_count store (load_progress fileInit).last_id⟩ := by
      unfold run
      rw [if_pos h0]
    rw [hrun]
    refine ⟨?_, ?_, ?_, ?_, ?_, ?_, ?_, ?_⟩ <;>
      simp [hRnil, h0, processBatch]
  · obtain ⟨s', hrun', hmig', hlast', hfile', heff', hlogs', hiters'⟩ :=
      runLoopF_spec cfg env store (get_total_count store (load_progress fileInit).last_id)
        hnd hbs (get_total_count store (load_progress fileInit).last_id + 1)
        ⟨(load_progress fileInit).last_id, (load_progress fileInit).migrated_count,
          fileInit, emptyEff, [], 0⟩
        (by dsimp only; rw [hlen]; unfold get_total_count; omega)
    dsimp only at hmig' hlast' hfile' heff' hlogs' hiters'
    have hrun : run cfg env store fileInit =
        ⟨{ s' with file := if !cfg.dry_run && s'.file.isSome then none else s'.file },
          some s'.migrated, get_total_count store (load_progress fileInit).last_id⟩ := by
      unfold run
      rw [if_neg h0, hrun']
      rfl
    have hRne : sortedRemaining store (load_progress fileInit).last_id ≠ [] := by
      intro he
      apply h0
      unfold get_total_count
      rw [← hlen, he]
      rfl
    rw [hrun]
    refine ⟨?_, ?_, ?_, ?_, ?_, ?_, ?_, ?_⟩
    · dsimp only
      unfold get_total_count
      rw [← hlen]
    · exact hmig'
    · exact hlast'
    · dsimp only
      rw [heff', eff_empty_app]
    · dsimp only
      rw [hlogs']
      rfl
    · dsimp only
      rw [if_neg hRne]
    · dsimp only
      rw [hfile', if_neg hRne]
      rw [if_neg hRne]
      cases hdry : cfg.dry_run
      · simp
      · simp
    · dsimp only
      omega

/-! ## Concrete fixtures for witnesses and counterexamples -/

def cfgReal : MigConfig := ⟨100, false, false, "t0"⟩

def cfgDry : MigConfig := ⟨100, true, false, "t0"⟩

def cfgSkip : MigConfig := ⟨100, false, true, "t0"⟩

def cfg10 : MigConfig := ⟨1, false, false, "t0"⟩

def env0 : Env := ⟨fun _ => false, fun _ => false, fun _ => false⟩

def env1 : Env := ⟨fun _ => false, fun i => i == 1, fun _ => false⟩

/-- A record with the given id and embedding column, content "hello". -/
def recOf (i : Nat) (emb : EmbVal) : SourceRecord :=
  ⟨i, none, none, none, none, none, "tbl", 0, none, some "hello", emb, some [], none⟩

def recG (i : Nat) : SourceRecord := recOf i (.vstr "[0.5]")

def recBadEmb : SourceRecord := recOf 1 (.vstr "[0.1, oops]")

def recBadEmb2 : SourceRecord := recOf 2 (.vstr "[0.1, oops]")

def recOops : SourceRecord := recOf 3 (.vstr "[\"oops\"]")

def recHello : SourceRecord := recOf 9 .null

def sW : LoopState := ⟨0, 5, none, emptyEff, [], 0⟩

def storeA6 : List SourceRecord := [recG 1]

def storeB6 : List SourceRecord := [recG 1, recBadEmb2]

def store10 : List SourceRecord := [recG 1]

/-! ## Claim C1 -/

/-- C1: for every batch of records with ids `[a..b]` processed by one
iteration of the run loop, the persisted checkpoint afterwards has
`last_id = b` (the id of the batch's final record) and `migrated_count`
incremented by exactly the number of records for which `migrate_chunk`
returned success, regardless of how many records failed. -/
theorem c1_batch_checkpoint (cfg : MigConfig) (env : Env) (total : Nat) (s : LoopState)
    (batch : List SourceRecord) (c : SourceRecord) (hc : batch.getLast? = some c) :
    (stepBatch cfg env total s batch).file =
      some ⟨c.id, s.migrated +
        batch.countP (fun r => (migrate_chunk cfg env r).success), total⟩ ∧
    (stepBatch cfg env total s batch).last_id = c.id ∧
    (stepBatch cfg env total s batch).migrated =
      s.migrated + batch.countP (fun r => (migrate_chunk cfg env r).success) := by
  unfold stepBatch
  rw [hc]
  dsimp only
  rw [processBatch_succ]
  exact ⟨rfl, rfl, rfl⟩

/-- Witness for C1: a two-record batch in which the first record fails
(malformed embedding) and the second succeeds; the saved checkpoint has
the last record's id and counts exactly one success. -/
theorem c1_batch_checkpoint_witness :
    [recBadEmb, recG 2].getLast? = some (recG 2) ∧
    (stepBatch cfgReal env0 7 sW [recBadEmb, recG 2]).file = some ⟨2, 6, 7⟩ := by
  have h := c1_batch_checkpoint cfgReal env0 7 sW [recBadEmb, recG 2] (recG 2) (by decide)
  refine ⟨by decide, ?_⟩
  rw [h.1]
  decide

/-! ## Claim C2 -/

/-- C2 counterexample: a non-dry-run invocation that starts with an
existing checkpoint and finds zero remaining records returns through the
early "no data" exit and leaves the progress file in place, contradicting
the claim that the file is gone after every clean non-dry-run completion. -/
theorem c2_counterexample :
    cfgReal.dry_run = false ∧
    (run cfgReal env0 [] (some ⟨5, 2, 7⟩)).st.file = some ⟨5, 2, 7⟩ := by
  exact ⟨rfl, by decide⟩

/-- C2 (amended): the progress file is deleted exactly when a non-dry-run
invocation finds a non-empty backlog and completes; an invocation that
finds zero remaining records returns early and leaves any existing file
untouched; a dry run never deletes the file. -/
theorem c2_checkpoint_deletion (cfg : MigConfig) (env : Env) (store : List SourceRecord)
    (fileInit : Option Progress) (hnd : (store.map (fun r => r.id)).Nodup)
    (hbs : 1 ≤ cfg.batch_size) :
    (cfg.dry_run = false → (run cfg env store fileInit).total ≠ 0 →
      (run cfg env store fileInit).st.file = none) ∧
    ((run cfg env store fileInit).total = 0 →
      (run cfg env store fileInit).st.file = fileInit) ∧
    (cfg.dry_run = true → fileInit.isSome = true →
      ((run cfg env store fileInit).st.file).isSome = true) := by
  obtain ⟨htot, _, _, _, _, _, hfile, _⟩ := run_spec cfg env store fileInit hnd hbs
  have hiff : (run cfg env store fileInit).total = 0 ↔
      sortedRemaining store (load_progress fileInit).last_id = [] := by
    rw [htot]
    exact List.length_eq_zero
  refine ⟨?_, ?_, ?_⟩
  · intro hdry hne
    rw [hfile, if_neg (fun he => hne (hiff.mpr he)), hdry]
    rfl
  · intro h0
    rw [hfile, if_pos (hiff.mp h0)]
  · intro hdry hsome
    rw [hfile]
    by_cases he : sortedRemaining store (load_progress fileInit).last_id = []
    · rw [if_pos he]
      exact hsome
    · rw [if_neg he, hdry]
      rfl

/-- Witness for C2: a non-dry run over one remaining record deletes the
checkpoint file it had written. -/
theorem c2_checkpoint_deletion_witness :
    (([recG 1].map (fun r => r.id)).Nodup ∧ 1 ≤ cfgReal.batch_size ∧
      cfgReal.dry_run = false ∧ (run cfgReal env0 [recG 1] (some ⟨0, 0, 0⟩)).total ≠ 0) ∧
    (run cfgReal env0 [recG 1] (some ⟨0, 0, 0⟩)).st.file = none := by
  refine ⟨⟨by decide, by decide, rfl, by decide⟩, ?_⟩
  exact (c2_checkpoint_deletion cfgReal env0 [recG 1] (some ⟨0, 0, 0⟩) (by decide)
    (by decide)).1 rfl (by decide)

/-! ## Claim C3 -/

/-- C3 counterexample: a dry run over one unmigrated record whose embedding
text is malformed performs zero writes, but `migrated_count` advances by
zero, not by the number of unmigrated records (one) — the parse failure
occurs in dry-run too. -/
theorem c3_counterexample :
    cfgDry.dry_run = true ∧
    (run cfgDry env0 [recBadEmb] none).total = 1 ∧
    (run cfgDry env0 [recBadEmb] none).st.migrated = 0 ∧
    (run cfgDry env0 [recBadEmb] none).st.effects = emptyEff := by
  exact ⟨rfl, by decide, by decide, by decide⟩

/-- C3 (amended): with `dry_run`, zero writes occur against the document
store, blob store, or source annotation; the checkpoint advances by the
number of records whose transform succeeds, so when every record's
embedding transforms cleanly, `migrated_count` ends at its starting value
plus the remaining count and `last_id` at the highest fetched id. -/
theorem c3_dry_run_purity (cfg : MigConfig) (env : Env) (store : List SourceRecord)
    (fileInit : Option Progress) (hnd : (store.map (fun r => r.id)).Nodup)
    (hbs : 1 ≤ cfg.batch_size) (hdry : cfg.dry_run = true) :
    (run cfg env store fileInit).st.effects = emptyEff ∧
    ((∀ r ∈ store, embedOk r = true) →
      (run cfg env store fileInit).st.migrated =
        (load_progress fileInit).migrated_count + (run cfg env store fileInit).total ∧
      ∀ c, (sortedRemaining store (load_progress fileInit).last_id).getLast? = some c →
        (run cfg env store fileInit).st.last_id = c.id) := by
  obtain ⟨htot, hmig, hlast, heff, _, _, _, _⟩ := run_spec cfg env store fileInit hnd hbs
  constructor
  · rw [heff, processBatch_dry_eff cfg env hdry]
  · intro hok
    have hcnt : (sortedRemaining store (load_progress fileInit).last_id).countP
        (fun r => (migrate_chunk cfg env r).success) =
        (sortedRemaining store (load_progress fileInit).last_id).length := by
      apply List.countP_eq_length.mpr
      intro r hr
      have hrs := sortedRemaining_mem.mp hr
      rw [(migrate_chunk_dry hdry).2]
      exact hok r hrs.1
    refine ⟨?_, ?_⟩
    · rw [hmig, hcnt, htot]
    · intro c hcl
      rw [hlast, hcl]
      rfl

/-- Witness for C3: a dry run over two well-formed records ends with the
checkpoint at `migrated_count = 2`, `last_id = 2`, and no writes. -/
theorem c3_dry_run_purity_witness :
    (([recG 1, recG 2].map (fun r => r.id)).Nodup ∧ 1 ≤ cfgDry.batch_size ∧
      cfgDry.dry_run = true ∧ (∀ r ∈ [recG 1, recG 2], embedOk r = true)) ∧
    (run cfgDry env0 [recG 1, recG 2] none).st.effects = emptyEff ∧
    (run cfgDry env0 [recG 1, recG 2] none).st.migrated = 2 := by
  have h := c3_dry_run_purity cfgDry env0 [recG 1, recG 2] none (by decide) (by decide) rfl
  refine ⟨⟨by decide, by decide, rfl, by decide⟩, h.1, ?_⟩
  rw [(h.2 (by decide)).1]
  decide

/-! ## Claim C4 -/

/-- C4: `cleanup_supabase` mutates only when `confirm=True` is passed and
the operator types the literal phrase `YES` (stripped); when it mutates, it
sets `content` and `embedding` to NULL exactly on rows whose `meta`
contains the migration marker key, deletes no row (ids preserved
positionally), leaves unmarked rows untouched, and reports the affected
row count. -/
theorem c4_cleanup_gate (confirm : Bool) (response : String) (store : List SourceRecord) :
    (confirm = false → cleanup_supabase confirm response store = (store, none)) ∧
    (pyStrip response ≠ "YES" → cleanup_supabase confirm response store = (store, none)) ∧
    (confirm = true → pyStrip response = "YES" →
      (cleanup_supabase confirm response store).2 =
        some (store.countP (fun r => metaHasKey r.meta "firebase_doc_id")) ∧
      ((cleanup_supabase confirm response store).1).map (fun r => r.id) =
        store.map (fun r => r.id) ∧
      (∀ i : Nat, ((cleanup_supabase confirm response store).1)[i]? =
        (store[i]?).map (fun r =>
          if metaHasKey r.meta "firebase_doc_id" then cleanupRecord r else r)) ∧
      (∀ r : SourceRecord, metaHasKey r.meta "firebase_doc_id" = false →
        (if metaHasKey r.meta "firebase_doc_id" then cleanupRecord r else r) = r) ∧
      (∀ r : SourceRecord, (cleanupRecord r).content = none ∧
        (cleanupRecord r).embedding = .null ∧ (cleanupRecord r).id = r.id ∧
        (cleanupRecord r).meta = r.meta ∧ (cleanupRecord r).title = r.title ∧
        (cleanupRecord r).source_table = r.source_table)) := by
  refine ⟨?_, ?_, ?_⟩
  · intro h
    unfold cleanup_supabase
    rw [h]
    rfl
  · intro h
    unfold cleanup_supabase
    cases confirm
    · rfl
    · simp only [Bool.not_true, Bool.false_eq_true, if_false]
      rw [if_pos]
      simp only [Bool.not_eq_true']
      exact decide_eq_false h
  · intro hc hresp
    have hstep : cleanup_supabase confirm response store =
        (store.map (fun r => if metaHasKey r.meta "firebase_doc_id"
          then cleanupRecord r else r),
         some (store.countP (fun r => metaHasKey r.meta "firebase_doc_id"))) := by
      unfold cleanup_supabase
      rw [hc]
      simp [hresp]
    rw [hstep]
    refine ⟨rfl, ?_, ?_, ?_, ?_⟩
    · dsimp only
      rw [List.map_map]
      apply List.map_congr_left
      intro r _
      by_cases hm : metaHasKey r.meta "firebase_doc_id" = true
      · simp [hm, cleanupRecord]
      · simp [hm]
    · intro i
      dsimp only
      rw [List.getElem?_map]
    · intro r hm
      rw [if_neg (by simp [hm])]
    · intro r
      exact ⟨rfl, rfl, rfl, rfl, rfl, rfl⟩

/-- Witness for C4: with a two-row store of which only one row carries the
marker, both failed gates leave the store untouched, and the armed
invocation reports one affected row and nulls exactly that row. -/
theorem c4_cleanup_gate_witness :
    (cleanup_supabase false "YES" [recG 1] = ([recG 1], none)) ∧
    (pyStrip "nope" ≠ "YES" ∧ cleanup_supabase true "nope" [recG 1] = ([recG 1], none)) ∧
    (pyStrip " YES " = "YES" ∧
      (cleanup_supabase true " YES " [recG 1]).2 = some 0) := by
  refine ⟨(c4_cleanup_gate false "YES" [recG 1]).1 rfl,
    ⟨by decide, (c4_cleanup_gate true "nope" [recG 1]).2.1 (by decide)⟩,
    ⟨by decide, ?_⟩⟩
  rw [((c4_cleanup_gate true " YES " [recG 1]).2.2 rfl (by decide)).1]
  decide

/-! ## Claim C5 -/

/-- C5: the moderation endpoint fails open — for any request whose content
field is a non-empty string, a missing/empty API key or any exception in
the classification call yields exactly a `SAFE`/`ALLOW` response with a
diagnostic reason: never an HTTP error and never a `BLOCK`. -/
theorem c5_fail_open {J : Type} (settings : ModSettings) (pc : Option String)
    (outcome : GenOutcome J) (c : String) (hpc : pc = some c) (hne : c ≠ "")
    (hfail : truthyOptStr settings.gemini_api_key = false ∨
      ∃ msg, outcome = .raised msg) :
    (∃ reason, safety_check settings pc outcome = .fixedResp "SAFE" reason "ALLOW") ∧
    (truthyOptStr settings.gemini_api_key = false →
      safety_check settings pc outcome =
        .fixedResp "SAFE" "API Key not configured" "ALLOW") ∧
    (truthyOptStr settings.gemini_api_key = true → ∀ msg, outcome = .raised msg →
      safety_check settings pc outcome =
        .fixedResp "SAFE" ("System error: " ++ msg) "ALLOW") := by
  have hcontent : pc.getD "" = c := by rw [hpc]; rfl
  have hkey : ∀ h : truthyOptStr settings.gemini_api_key = false,
      safety_check settings pc outcome =
        .fixedResp "SAFE" "API Key not configured" "ALLOW" := by
    intro h
    unfold safety_check
    rw [hcontent, if_neg hne, h]
    rfl
  have hraise : ∀ (h : truthyOptStr settings.gemini_api_key = true) (msg : String),
      outcome = .raised msg →
      safety_check settings pc outcome =
        .fixedResp "SAFE" ("System error: " ++ msg) "ALLOW" := by
    intro h msg hmsg
    unfold safety_check
    rw [hcontent, if_neg hne, h, hmsg]
    rfl
  refine ⟨?_, hkey, hraise⟩
  rcases hfail with h | ⟨msg, hmsg⟩
  · exact ⟨_, hkey h⟩
  · cases hkeyb : truthyOptStr settings.gemini_api_key
    · exact ⟨_, hkey hkeyb⟩
    · exact ⟨_, hraise hkeyb msg hmsg⟩

/-- Witness for C5: a non-empty request against unset credentials, and one
against a raising backend with credentials set, both fail open. -/
theorem c5_fail_open_witness :
    (("boom" : String) ≠ "") ∧
    @safety_check Nat ⟨none, "m"⟩ (some "boom") (.raised "x") =
      .fixedResp "SAFE" "API Key not configured" "ALLOW" ∧
    @safety_check Nat ⟨some "k", "m"⟩ (some "boom") (.raised "netfail") =
      .fixedResp "SAFE" ("System error: " ++ "netfail") "ALLOW" := by
  refine ⟨by decide, ?_, ?_⟩
  · exact (@c5_fail_open Nat ⟨none, "m"⟩ (some "boom") (.raised "x") "boom" rfl
      (by decide) (Or.inl rfl)).2.1 rfl
  · exact (@c5_fail_open Nat ⟨some "k", "m"⟩ (some "boom") (.raised "netfail") "boom" rfl
      (by decide) (Or.inr ⟨"netfail", rfl⟩)).2.2 rfl "netfail" rfl

/-! ## Claim C6 -/

/-- C6 counterexample: two runs with equal success counts but different
failure counts (zero vs one) produce identical completion summaries — the
summary is only the cumulative `migrated_count` and reports neither
failures nor a total nor elapsed time, and the only trace of the failed
record is a printed error line. -/
theorem c6_counterexample :
    (run cfgReal env0 storeA6 none).summaryCount =
      (run cfgReal env0 storeB6 none).summaryCount ∧
    (run cfgReal env0 storeA6 none).st.logs.length = 0 ∧
    (run cfgReal env0 storeB6 none).st.logs.length = 1 := by
  exact ⟨by decide, by decide, by decide⟩

/-- C6 (amended): per-record errors are printed with the record's id but
not tallied in any counter; the summary printed at the end of a run reports
only the cumulative `migrated_count` (its initial value plus the number of
successes), with no failure count, total, or elapsed time. -/
theorem c6_final_summary (cfg : MigConfig) (env : Env) (store : List SourceRecord)
    (fileInit : Option Progress) (hnd : (store.map (fun r => r.id)).Nodup)
    (hbs : 1 ≤ cfg.batch_size) (hne : (run cfg env store fileInit).total ≠ 0) :
    (run cfg env store fileInit).summaryCount =
      some ((load_progress fileInit).migrated_count +
        (sortedRemaining store (load_progress fileInit).last_id).countP
          (fun r => (migrate_chunk cfg env r).success)) ∧
    ((run cfg env store fileInit).st.logs).map Prod.fst =
      ((sortedRemaining store (load_progress fileInit).last_id).filter
        (fun r => !(migrate_chunk cfg env r).success)).map (fun r => r.id) := by
  obtain ⟨htot, hmig, _, _, hlogs, hsum, _, _⟩ := run_spec cfg env store fileInit hnd hbs
  have hRne : sortedRemaining store (load_progress fileInit).last_id ≠ [] := by
    intro he
    apply hne
    rw [htot, he]
    rfl
  refine ⟨?_, ?_⟩
  · rw [hsum, if_neg hRne, hmig]
  · rw [hlogs, processBatch_log_ids]

/-- Witness for C6: a run over one good and one malformed record prints a
summary of 1 and logs exactly the failed record's id. -/
theorem c6_final_summary_witness :
    ((storeB6.map (fun r => r.id)).Nodup ∧ 1 ≤ cfgReal.batch_size ∧
      (run cfgReal env0 storeB6 none).total ≠ 0) ∧
    (run cfgReal env0 storeB6 none).summaryCount = some 1 ∧
    ((run cfgReal env0 storeB6 none).st.logs).map Prod.fst = [2] := by
  have h := c6_final_summary cfgReal env0 storeB6 none (by decide) (by decide) (by decide)
  refine ⟨⟨by decide, by decide, by decide⟩, ?_, ?_⟩
  · rw [h.1]
    decide
  · rw [h.2]
    decide

/-! ## Claim C7 -/

/-- C7: any exception in a record's transform/write/annotate pipeline is
caught inside `migrate_chunk`, which returns a failure outcome carrying a
log line with the record's id; failures never abort the batch or the run —
every remaining record is still attempted (successes are counted across
all of them), the watermark still reaches the final remaining id, and each
failed record appears in the error log by id. -/
theorem c7_error_containment (cfg : MigConfig) (env : Env) (store : List SourceRecord)
    (fileInit : Option Progress) (hnd : (store.map (fun r => r.id)).Nodup)
    (hbs : 1 ≤ cfg.batch_size) :
    (∀ r : SourceRecord, (migrate_chunk cfg env r).success = false →
      ∃ m, (migrate_chunk cfg env r).log = [(r.id, m)]) ∧
    ((run cfg env store fileInit).st.migrated =
      (load_progress fileInit).migrated_count +
        (sortedRemaining store (load_progress fileInit).last_id).countP
          (fun r => (migrate_chunk cfg env r).success)) ∧
    ((run cfg env store fileInit).st.last_id =
      (((sortedRemaining store (load_progress fileInit).last_id).getLast?).map
        (fun c => c.id)).getD (load_progress fileInit).last_id) ∧
    (((run cfg env store fileInit).st.logs).map Prod.fst =
      ((sortedRemaining store (load_progress fileInit).last_id).filter
        (fun r => !(migrate_chunk cfg env r).success)).map (fun r => r.id)) := by
  obtain ⟨_, hmig, hlast, _, hlogs, _, _, _⟩ := run_spec cfg env store fileInit hnd hbs
  refine ⟨?_, hmig, hlast, ?_⟩
  · intro r hfail
    rcases migrate_chunk_log_cases cfg env r with ⟨hs, _⟩ | ⟨_, m, hl⟩
    · rw [hs] at hfail
      cases hfail
    · exact ⟨m, hl⟩
  · rw [hlogs, processBatch_log_ids]

/-- Witness for C7: with an injected Firestore write fault on record 1, the
run still attempts and migrates record 2, advances the watermark to 2, and
logs record 1's failure by id. -/
theorem c7_error_containment_witness :
    (([recG 1, recG 2].map (fun r => r.id)).Nodup ∧ 1 ≤ cfgReal.batch_size) ∧
    (run cfgReal env1 [recG 1, recG 2] none).st.migrated = 1 ∧
    (run cfgReal env1 [recG 1, recG 2] none).st.last_id = 2 ∧
    ((run cfgReal env1 [recG 1, recG 2] none).st.logs).map Prod.fst = [1] := by
  have h := c7_error_containment cfgReal env1 [recG 1, recG 2] none (by decide) (by decide)
  refine ⟨⟨by decide, by decide⟩, ?_, ?_, ?_⟩
  · rw [h.2.1]
    decide
  · rw [h.2.2.1]
    decide
  · rw [h.2.2.2]
    decide

/-! Helper facts about the per-record pipeline steps. -/

lemma stepStorage_ok_shape (cfg : MigConfig) (env : Env) (r : SourceRecord)
    {sp : Option String} {e : Effects} (h : stepStorage cfg env r = .ok (sp, e)) :
    sp = (if !cfg.skip_storage && truthyOptStr r.content then some (blobPathOf r)
      else none) ∧ e.docWrites = [] := by
  unfold stepStorage at h
  by_cases hc : (!cfg.skip_storage && truthyOptStr r.content) = true
  · rw [if_pos hc] at h
    by_cases hd : cfg.dry_run = true
    · rw [if_pos hd] at h
      simp only [Except.ok.injEq, Prod.mk.injEq] at h
      rw [if_pos hc, ← h.1, ← h.2]
      exact ⟨rfl, rfl⟩
    · rw [if_neg hd] at h
      by_cases hb : env.blobFail r.id = true
      · rw [if_pos hb] at h
        cases h
      · rw [if_neg hb] at h
        simp only [Except.ok.injEq, Prod.mk.injEq] at h
        rw [if_pos hc, ← h.1, ← h.2]
        exact ⟨rfl, rfl⟩
  · rw [if_neg hc] at h
    simp only [Except.ok.injEq, Prod.mk.injEq] at h
    rw [if_neg hc, ← h.1, ← h.2]
    exact ⟨rfl, rfl⟩

lemma migrateChunkCore_ok_doc (cfg : MigConfig) (env : Env) (r : SourceRecord)
    {d : FirestoreDoc} {e : Effects} (h : migrateChunkCore cfg env r = .ok (d, e)) :
    ∃ sp e1 emb, stepStorage cfg env r = .ok (sp, e1) ∧ stepEmbedding r = .ok emb ∧
      d = buildDoc r sp emb := by
  unfold migrateChunkCore at h
  rcases hss : stepStorage cfg env r with m | ⟨sp, e1⟩
  · rw [hss] at h
    cases h
  · rcases hse : stepEmbedding r with m | emb
    · simp only [hss, hse] at h
      exact Except.noConfusion h
    · simp only [hss, hse] at h
      refine ⟨sp, e1, emb, rfl, rfl, ?_⟩
      by_cases hd : cfg.dry_run = true
      · rw [if_pos hd] at h
        simp only [Except.ok.injEq, Prod.mk.injEq] at h
        exact h.1.symm
      · rw [if_neg hd] at h
        by_cases hb : env.docFail r.id = true
        · rw [if_pos hb] at h
          cases h
        · rw [if_neg hb] at h
          by_cases ha : env.annotFail r.id = true
          · rw [if_pos ha] at h
            cases h
          · rw [if_neg ha] at h
            simp only [Except.ok.injEq, Prod.mk.injEq] at h
            exact h.1.symm

/-! ## Claim C8 -/

/-- C8 counterexample: embedding text that is valid JSON but not a numeric
vector (`["oops"]`) is NOT a record-level failure — `migrate_chunk`
succeeds and writes a document whose embedding is the parsed string array,
a silently corrupted document. -/
theorem c8_counterexample :
    (migrate_chunk cfgReal env0 recOops).success = true ∧
    ((migrate_chunk cfgReal env0 recOops).eff.docWrites.map
      (fun p => p.2.embedding)) = [some [JVal.str "oops".data]] := by
  exact ⟨by decide, by decide⟩

/-- C8 (amended): the transformer accepts both a native numeric-array
embedding and a bracketed textual list; parsing a serialized vector string
and re-serializing it yields the identical parse (hence the identical
numeric sequence — exactly, so certainly within tolerance), and
`"[0.10, 0.20, 0.30]"` parses to the values 1/10, 1/5, 3/10; embedding
text that fails JSON parsing (such as `"[0.1, oops]"`) produces a
record-level failure with no document write, while text that parses as
JSON but is not a numeric array is stored as parsed without error. -/
theorem c8_embedding_parse :
    (∀ (s : String) (vs : List JVal), jsonLoadsArr s = some vs →
      jsonLoadsArr (printJArr vs) = some vs) ∧
    ((jsonLoadsArr "[0.10, 0.20, 0.30]").map (fun l => l.map jvalVal) =
      some [some (mkRat 1 10), some (mkRat 1 5), some (mkRat 3 10)]) ∧
    (∀ (cfg : MigConfig) (env : Env) (r : SourceRecord) (xs : List JVal)
      (d : FirestoreDoc) (e : Effects), r.embedding = .varr xs → xs ≠ [] →
      migrateChunkCore cfg env r = .ok (d, e) → d.embedding = some xs) ∧
    (jsonLoadsArr "[0.1, oops]" = none) ∧
    (∀ (cfg : MigConfig) (env : Env) (r : SourceRecord),
      r.embedding = .vstr "[0.1, oops]" →
      (migrate_chunk cfg env r).success = false ∧
      (migrate_chunk cfg env r).eff.docWrites = []) := by
  refine ⟨fun s vs h => jsonLoadsArr_print (jsonLoadsArr_valid h),
    by with_unfolding_all rfl, ?_, by decide, ?_⟩
  · intro cfg env r xs d e hemb hne hcore
    obtain ⟨sp, e1, emb, _, hse, hd⟩ := migrateChunkCore_ok_doc cfg env r hcore
    have hxe : emb = some xs := by
      unfold stepEmbedding at hse
      simp only [hemb] at hse
      rw [if_neg (by simp [List.isEmpty_iff]; exact hne)] at hse
      simp only [Except.ok.injEq] at hse
      exact hse.symm
    rw [hd, hxe]
    rfl
  · intro cfg env r hemb
    have hse : stepEmbedding r = .error "embedding is not valid JSON" := by
      unfold stepEmbedding
      rw [hemb]
      rfl
    rcases hss : stepStorage cfg env r with m | ⟨sp, e1⟩
    · have hcore : migrateChunkCore cfg env r = .error (m, emptyEff) := by
        unfold migrateChunkCore
        simp only [hss]
      rw [migrate_chunk_err hcore]
      exact ⟨rfl, rfl⟩
    · have hcore : migrateChunkCore cfg env r =
          .error ("embedding is not valid JSON", e1) := by
        unfold migrateChunkCore
        simp only [hss, hse]
      rw [migrate_chunk_err hcore]
      exact ⟨rfl, (stepStorage_ok_shape cfg env r hss).2⟩

/-- Witness for C8: the serialized-parse-reserialize round trip at the
spec's example string, a native-array record whose document keeps the
array verbatim, and the malformed-text record failure. -/
theorem c8_embedding_parse_witness :
    (∃ vs, jsonLoadsArr "[0.10, 0.20, 0.30]" = some vs ∧
      jsonLoadsArr (printJArr vs) = some vs) ∧
    ((migrate_chunk cfgReal env0 recBadEmb).success = false ∧
      (migrate_chunk cfgReal env0 recBadEmb).eff.docWrites = []) ∧
    (∃ d e, migrateChunkCore cfgReal env0 (recOf 4 (.varr [.num ⟨false, [5], none, none⟩]))
      = .ok (d, e) ∧ d.embedding = some [.num ⟨false, [5], none, none⟩]) := by
  refine ⟨?_, c8_embedding_parse.2.2.2.2 cfgReal env0 recBadEmb rfl, ?_⟩
  · rcases hv : jsonLoadsArr "[0.10, 0.20, 0.30]" with _ | vs
    · exact absurd hv (by decide)
    · exact ⟨vs, rfl, c8_embedding_parse.1 _ _ hv⟩
  · rcases hcore : migrateChunkCore cfgReal env0
        (recOf 4 (.varr [.num ⟨false, [5], none, none⟩])) with p | ⟨d, e⟩
    · have hok : (match migrateChunkCore cfgReal env0
          (recOf 4 (.varr [.num ⟨false, [5], none, none⟩])) with
          | .ok _ => true | .error _ => false) = true := by decide
      rw [hcore] at hok
      cases hok
    · exact ⟨d, e, rfl, c8_embedding_parse.2.2.1 cfgReal env0 _
        [.num ⟨false, [5], none, none⟩] d e rfl (by decide) hcore⟩

/-! ## Claim C9 -/

/-- C9: every document produced by the transform carries exactly one
content representation — `storagePath` plus `contentLength` and no inline
`content` key when a blob is produced (`skip_storage` false and content
truthy), and an inline `content` key with no `storagePath` or
`contentLength` otherwise (in particular whenever `skip_storage` is
true). -/
theorem c9_content_exclusive (cfg : MigConfig) (env : Env) (r : SourceRecord)
    (d : FirestoreDoc) (e : Effects) (h : migrateChunkCore cfg env r = .ok (d, e)) :
    ((cfg.skip_storage = false ∧ truthyOptStr r.content = true) →
      d.storagePath = some (blobPathOf r) ∧
      d.contentLength = some ((r.content.getD "").length) ∧ d.content = none) ∧
    ((cfg.skip_storage = true ∨ truthyOptStr r.content = false) →
      d.content = some r.content ∧ d.storagePath = none ∧ d.contentLength = none) := by
  obtain ⟨sp, e1, emb, hss, _, hd⟩ := migrateChunkCore_ok_doc cfg env r h
  have hsp := (stepStorage_ok_shape cfg env r hss).1
  subst hd
  constructor
  · rintro ⟨hskip, htruthy⟩
    have hcond : (!cfg.skip_storage && truthyOptStr r.content) = true := by
      rw [hskip, htruthy]
      rfl
    rw [hsp, if_pos hcond]
    exact ⟨rfl, rfl, rfl⟩
  · intro hor
    have hcond : (!cfg.skip_storage && truthyOptStr r.content) = false := by
      rcases hor with h1 | h1
      · rw [h1]
        rfl
      · rw [h1]
        simp
    rw [hsp, if_neg (by simp [hcond])]
    exact ⟨rfl, rfl, rfl⟩

/-- Witness for C9: with `skip_storage`, record 9 (content "hello") gets an
inline `content` and no `storagePath`; without it, the same record gets a
`storagePath`/`contentLength` and no inline content. -/
theorem c9_content_exclusive_witness :
    (∃ d e, migrateChunkCore cfgSkip env0 recHello = .ok (d, e) ∧
      d.content = some (some "hello") ∧ d.storagePath = none ∧
      d.contentLength = none) ∧
    (∃ d e, migrateChunkCore cfgReal env0 recHello = .ok (d, e) ∧
      d.storagePath = some (blobPathOf recHello) ∧ d.content = none) := by
  constructor
  · rcases hcore : migrateChunkCore cfgSkip env0 recHello with p | ⟨d, e⟩
    · have hok : (match migrateChunkCore cfgSkip env0 recHello with
          | .ok _ => true | .error _ => false) = true := by decide
      rw [hcore] at hok
      cases hok
    · have h := c9_content_exclusive cfgSkip env0 recHello d e hcore
      have h2 := h.2 (Or.inl rfl)
      exact ⟨d, e, rfl, h2.1, h2.2.1, h2.2.2⟩
  · rcases hcore : migrateChunkCore cfgReal env0 recHello with p | ⟨d, e⟩
    · have hok : (match migrateChunkCore cfgReal env0 recHello with
          | .ok _ => true | .error _ => false) = true := by decide
      rw [hcore] at hok
      cases hok
    · have h := c9_content_exclusive cfgReal env0 recHello d e hcore
      have h1 := h.1 ⟨rfl, by decide⟩
      exact ⟨d, e, rfl, h1.1, h1.2.2⟩

/-! ## Claim C10 -/

/-- C10 counterexample: with one remaining record and `batch_size = 1`,
the loop's first batch is full, so a second iteration fetches an empty
batch before stopping — two iterations, exceeding the claimed bound of
one (the number of distinct ids above the watermark). -/
theorem c10_counterexample :
    (run cfg10 env0 store10 none).st.iters = 2 ∧
    (store10.filter (idGt 0)).length = 1 := by
  exact ⟨by decide, by decide⟩

/-- C10 (amended): the batch loop terminates — `remaining + 1` fuel always
reaches a break, within at most `remaining + 1` iterations (one more than
the number of distinct source ids above the starting watermark), and every
non-empty fetch strictly raises the watermark (each fetched record's id
exceeds the previous `last_id`). -/
theorem c10_loop_termination (cfg : MigConfig) (env : Env) (store : List SourceRecord)
    (fileInit : Option Progress) (hnd : (store.map (fun r => r.id)).Nodup)
    (hbs : 1 ≤ cfg.batch_size) :
    (∃ s', runLoopF cfg env store (run cfg env store fileInit).total
        ((sortedRemaining store (load_progress fileInit).last_id).length + 1)
        ⟨(load_progress fileInit).last_id, (load_progress fileInit).migrated_count,
          fileInit, emptyEff, [], 0⟩ = some s' ∧
      s'.iters ≤ (sortedRemaining store (load_progress fileInit).last_id).length + 1) ∧
    ((run cfg env store fileInit).st.iters ≤
      (sortedRemaining store (load_progress fileInit).last_id).length + 1) ∧
    (∀ last bs : Nat, ∀ c : SourceRecord,
      (fetch_batch store last bs).getLast? = some c → last < c.id) := by
  refine ⟨?_, ?_, ?_⟩
  · obtain ⟨s', hrun', _, _, _, _, _, hiters'⟩ :=
      runLoopF_spec cfg env store (run cfg env store fileInit).total hnd hbs
        ((sortedRemaining store (load_progress fileInit).last_id).length + 1)
        ⟨(load_progress fileInit).last_id, (load_progress fileInit).migrated_count,
          fileInit, emptyEff, [], 0⟩
        (by dsimp only; omega)
    dsimp only at hiters'
    exact ⟨s', hrun', by omega⟩
  · exact (run_spec cfg env store fileInit hnd hbs).2.2.2.2.2.2.2
  · intro last bs c hc
    exact (fetch_batch_mem (List.mem_of_mem_getLast? hc)).2

/-- Witness for C10: the two-iteration run over one record stays within
the amended bound of remaining + 1 = 2. -/
theorem c10_loop_termination_witness :
    ((store10.map (fun r => r.id)).Nodup ∧ 1 ≤ cfg10.batch_size) ∧
    (run cfg10 env0 store10 none).st.iters ≤
      (sortedRemaining store10 (load_progress none).last_id).length + 1 := by
  refine ⟨⟨by decide, by decide⟩, ?_⟩
  exact (c10_loop_termination cfg10 env0 store10 none (by decide) (by decide)).2.1
